import Mathlib

/-!
Verification of the Resume Relevance Optimizer (`src/resume_optimizer.py`,
class `ResumeOptimizer`).

Shallow embedding conventions:
* Python `str` is Lean `String`; `s.lower()` is `pyLower`, the `in`
  operator on strings is substring containment (`strContains`).
* Python `float` values are modelled as non-negative rationals (`Frac`,
  an unreduced numerator/denominator pair compared by
  cross-multiplication).  CPython floats are IEEE-754 binary64 and every
  arithmetic step is correctly rounded, so the achievement score of
  `optimize_experience` — the float chain `matches / len(keywords)`,
  `score += 0.3`, `score += 0.2` — is embedded with explicit binary64
  rounding (`roundDouble`) after each operation, with the literals `0.3`
  and `0.2` as their binary64 values.  The entry-level relevance score
  `matches / len(keywords)` (`score_relevance`) is kept as the exact
  ratio `m / n`: the places that consume it compare it against `0.3` or
  against another ratio with the same denominator `n`, and on such
  comparisons the exact ratio is order-faithful — two distinct compared
  values differ by at least `1 / (10 * n)`, while rounding each operand
  to binary64 moves it by less than `2 ^ -53`, which is smaller for
  every reachable `n` (`extract_job_keywords` draws from a fixed
  vocabulary of under 50 terms).
* Python dicts with a fixed shape become structures; the duck-typed skills
  entries (`str` or `dict`) become the sum type `SkillItem`; a possibly
  malformed entry of the experience / projects / volunteering lists
  (anything that is not a mapping) becomes `ExpItem.mal` / `ProjItem.mal`,
  and the `AttributeError` such an entry provokes in the Python code is an
  `Except.error ()`.
* `extract_job_keywords` builds a Python `set` and then lists it in the
  set's (unspecified) iteration order.  Every downstream consumer is
  order-insensitive (membership counting and `any` checks), so the
  embedding fixes the deterministic first-insertion order.
* Python's stable `list.sort(key=..., reverse=True)` is embedded as the
  insertion sort `sortDesc`, which realizes exactly the stable descending
  order (equal keys keep their original relative order).
-/

namespace ResumeOptimizer

/-! ### Exact non-negative fractions (the score domain)

All scores produced by the optimizer are non-negative; a score is kept as
an unreduced pair `num / den` and compared by cross-multiplication, which
agrees with the rational order whenever the denominators are positive
(every score the program builds has a positive denominator). -/

structure Frac where
  num : Nat
  den : Nat
  deriving DecidableEq

/-- Order `a ≤ b` on fractions by cross-multiplication. -/
def Frac.le (a b : Frac) : Prop := a.num * b.den ≤ b.num * a.den

/-- Order `a < b` on fractions by cross-multiplication. -/
def Frac.lt (a b : Frac) : Prop := a.num * b.den < b.num * a.den

/-- Value equality of fractions (`1/2 = 2/4`). -/
def Frac.eqv (a b : Frac) : Prop := a.num * b.den = b.num * a.den

instance (a b : Frac) : Decidable (Frac.le a b) :=
  inferInstanceAs (Decidable (_ ≤ _))

instance (a b : Frac) : Decidable (Frac.lt a b) :=
  inferInstanceAs (Decidable (_ < _))

instance (a b : Frac) : Decidable (Frac.eqv a b) :=
  inferInstanceAs (Decidable (_ = _))

/-- Addition of fractions (`a/b + c/d = (ad + cb) / (bd)`), the exact
value of a float sum before it is rounded back to binary64. -/
def Frac.add (a b : Frac) : Frac :=
  ⟨a.num * b.den + b.num * a.den, a.den * b.den⟩

/-! ### Binary64 rounding (Python `float` arithmetic)

CPython floats are IEEE-754 binary64 values and every arithmetic
operation is correctly rounded: the float result is the binary64 value
nearest to the exact rational result, ties going to the value with an
even last significand bit.  `roundDouble` below is that rounding on
non-negative rationals, so `x / y` on ints is `roundDouble ⟨x, y⟩` and
float addition is `roundDouble (Frac.add a b)` for binary64 operands
`a`, `b`.  Every score the optimizer builds lies in `[0, 1.5]`, far from
the overflow threshold, so overflow to infinity is not modelled. -/

/-- Bit length of a natural number, written with explicit fuel so that
the recursion is structural; fuel `n` always suffices for input `n`. -/
def bitLenFuel : Nat → Nat → Nat
  | 0, _ => 0
  | fuel + 1, n => if n = 0 then 0 else bitLenFuel fuel (n / 2) + 1

/-- Bit length of a natural number: `0` for `0`, otherwise
`floor (log2 n) + 1`. -/
def bitLen (n : Nat) : Nat := bitLenFuel n n

/-- Floor of the base-2 logarithm of `a / b`, for positive `a` and `b`:
the bit-length difference is off by at most one, and the
cross-multiplied test `2 ^ d ≤ a / b` settles which of the two
candidates is right. -/
def fracLog2 (a b : Nat) : Int :=
  let d : Int := (bitLen a : Int) - (bitLen b : Int)
  if 0 ≤ d then
    if b * 2 ^ d.toNat ≤ a then d else d - 1
  else
    if b ≤ a * 2 ^ (-d).toNat then d else d - 1

/-- Round the non-negative rational `num / den` to the nearest integer,
ties to even. -/
def roundNearestEven (num den : Nat) : Nat :=
  let q := num / den
  let r := num % den
  if 2 * r < den then q
  else if den < 2 * r then q + 1
  else if q % 2 = 0 then q else q + 1

/-- Round a non-negative rational to the nearest IEEE-754 binary64 value
(round to nearest, ties to even): a value with exponent `e ≥ -1022` is
rounded to 53 significant bits, i.e. to the grid `2 ^ (e - 52)`, and a
smaller value to the fixed subnormal grid `2 ^ -1074`. -/
def roundDouble (q : Frac) : Frac :=
  if q.num = 0 ∨ q.den = 0 then ⟨0, 1⟩
  else
    let e := fracLog2 q.num q.den
    let k : Int := if e < -1022 then 1074 else 52 - e
    if 0 ≤ k then
      ⟨roundNearestEven (q.num * 2 ^ k.toNat) q.den, 2 ^ k.toNat⟩
    else
      ⟨roundNearestEven q.num (q.den * 2 ^ (-k).toNat) * 2 ^ (-k).toNat, 1⟩

/-- The binary64 value of the Python literal `0.3`:
`5404319552844595 * 2 ^ -54` (hex significand `0x1.3333333333333p-2`). -/
def fl03 : Frac := ⟨5404319552844595, 18014398509481984⟩

/-- The binary64 value of the Python literal `0.2`:
`7205759403792794 * 2 ^ -55` (hex significand `0x1.999999999999ap-3`). -/
def fl02 : Frac := ⟨7205759403792794, 36028797018963968⟩

/-! ### String helpers (Python string operations) -/

/-- Python `str.lower()` (character-wise; the inputs here are ASCII). -/
def pyLower (s : String) : String := String.mk (s.data.map Char.toLower)

/-- Split a character list at every character satisfying `p`, keeping
empty pieces (the behavior of `re.split` with a character class). -/
def splitChars (p : Char → Bool) : List Char → List (List Char)
  | [] => [[]]
  | c :: cs =>
    if p c then [] :: splitChars p cs
    else
      match splitChars p cs with
      | [] => [[c]]
      | a :: rest => (c :: a) :: rest

/-- Split a string at every character satisfying `p`, keeping empty
pieces. -/
def pySplit (p : Char → Bool) (s : String) : List String :=
  (splitChars p s.data).map String.mk

/-- Python `str.strip()` with no arguments: drop whitespace from both
ends. -/
def pyTrim (s : String) : String :=
  String.mk
    (((s.data.dropWhile Char.isWhitespace).reverse.dropWhile
        Char.isWhitespace).reverse)

/-- Prefix test at every suffix of the haystack: Python's substring
containment test `needle in hay` on the underlying character lists. -/
def infixOfAux (needle : List Char) : List Char → Bool
  | [] => needle.isPrefixOf []
  | c :: t => needle.isPrefixOf (c :: t) || infixOfAux needle t

/-- Python `needle in hay` for strings (substring containment;
`"" in s` is `True`). -/
def strContains (hay needle : String) : Bool :=
  infixOfAux needle.data hay.data

/-- Python `str.capitalize()`: first character upper-cased, the rest
lower-cased (the inputs here are ASCII). -/
def pyCapitalize (s : String) : String :=
  match s.data with
  | [] => ""
  | c :: cs => String.mk (c.toUpper :: cs.map Char.toLower)

/-- Python `str.split()` with no arguments: split on whitespace runs,
dropping empty pieces. -/
def pySplitWhitespace (s : String) : List String :=
  (pySplit Char.isWhitespace s).filter (fun w => decide (w ≠ ""))

/-- First-seen deduplication (the membership effect of feeding a list into
a Python `set`, listed in first-insertion order). -/
def dedupKeepAux : List String → List String → List String
  | [], _ => []
  | s :: rest, seen =>
    if s ∈ seen then dedupKeepAux rest seen
    else s :: dedupKeepAux rest (s :: seen)

/-- First-seen deduplication of a list of strings. -/
def dedupKeep (l : List String) : List String := dedupKeepAux l []

/-! ### Keyword extraction (`extract_job_keywords`, lines 11-49) -/

/-- The fixed reference vocabulary `priority_tools` (lines 17-29). -/
def priorityTools : List String :=
  ["smartsheet", "ms project", "microsoft project", "project",
   "atlassian", "jira", "confluence", "bitbucket",
   "python", "c++", "javascript", "java", "c#",
   "agile", "scrum", "kanban",
   "project management", "management",
   "git", "github", "gitlab",
   "software development", "software", "development", "programming",
   "collaboration", "cross-functional", "team",
   "leadership", "lead", "manage",
   "communication", "excel", "office",
   "google workspace", "google", "slack", "teams"]

/-- The unconditional `job_specific_keywords` (lines 37-40), added to the
keyword set regardless of the job description. -/
def jobSpecificKeywords : List String :=
  ["smartsheet", "ms project", "atlassian", "python", "c++", "c",
   "project management", "software", "development", "team"]

/-- Embedding of `extract_job_keywords(job_description)` (lines 11-49): every
`priority_tools` term contained in the lowercased description, united with
the unconditional `job_specific_keywords`, post-filtered to terms of at
most 3 words and 25 characters.  The Python function returns the set as a
list in set-iteration order; the embedding lists it in first-insertion
order, which is adequate because every consumer is order-insensitive. -/
def extractJobKeywords (jobDescription : String) : List String :=
  let jobLower := pyLower jobDescription
  let matched := priorityTools.filter (fun t => strContains jobLower t)
  let keywords := dedupKeep (matched ++ jobSpecificKeywords)
  keywords.filter (fun k =>
    decide ((pySplitWhitespace k).length ≤ 3) && decide (k.length ≤ 25))

/-! ### Relevance scoring (`score_relevance`, lines 51-60) -/

/-- Embedding of `score_relevance(text, keywords)` (lines 51-60): `0.0` when either
input is empty, else the fraction of keywords occurring (case-insensitive)
as a substring of the text. -/
def scoreRelevance (keywords : List String) (text : String) : Frac :=
  if text = "" ∨ keywords = [] then ⟨0, 1⟩
  else ⟨keywords.countP (fun k => strContains (pyLower text) (pyLower k)),
        keywords.length⟩

/-! ### Stable descending sort (Python `list.sort(key=lambda x: x[1], reverse=True)`)

Python's sort is stable; with `reverse=True` elements with equal keys
still keep their original relative order.  The insertion sort below
realizes exactly that order: an element is inserted before the first
element whose score is `≤` its own, i.e. after every strictly greater
score and before every equal one that occurred later in the input. -/

/-- Insert one scored item into an already-sorted (descending) list,
keeping it after strictly greater scores and before equal ones. -/
def insertDesc {α : Type} (x : α × Frac) : List (α × Frac) → List (α × Frac)
  | [] => [x]
  | y :: ys => if Frac.le y.2 x.2 then x :: y :: ys else y :: insertDesc x ys

/-- Stable sort of scored items by score, descending (the embedding of
`scored.sort(key=lambda x: x[1], reverse=True)`). -/
def sortDesc {α : Type} : List (α × Frac) → List (α × Frac)
  | [] => []
  | x :: xs => insertDesc x (sortDesc xs)

/-- Annotate scored items with their original position, for stating
stability of `sortDesc`. -/
def withIdx {α : Type} (n : Nat) : List (α × Frac) → List ((Nat × α) × Frac)
  | [] => []
  | p :: rest => ((n, p.1), p.2) :: withIdx (n + 1) rest

/-- Map over the payload of scored items, leaving scores unchanged. -/
def mapFst {α β : Type} (g : α → β) (l : List (α × Frac)) : List (β × Frac) :=
  l.map (fun p => (g p.1, p.2))

/-- The strict order "x must come before y" of a stable descending sort:
either a strictly greater score, or an equal score and an earlier original
position. -/
def lexAfter {α : Type} (f : α → Nat) (x y : α × Frac) : Prop :=
  Frac.lt y.2 x.2 ∨ (Frac.eqv x.2 y.2 ∧ f x.1 < f y.1)

/-! ### Data model (the `StructuredResume` dict and its entries) -/

/-- One experience entry: the keys the optimizer reads (`role`, `company`,
`achievements`), with Python's `.get(..., default)` missing-key defaults
folded into the field values. -/
structure ExpEntry where
  role : String
  company : String
  achievements : List String
  deriving DecidableEq

/-- One project / volunteering entry: the keys the optimizer reads
(`project_title`, `role`, `achievements`). -/
structure Project where
  projectTitle : String
  role : String
  achievements : List String
  deriving DecidableEq

/-- A skills entry, which the source treats duck-typed: either a plain
string or a dict (whose `skill` key, when present, holds the display
string). -/
inductive SkillItem where
  | str (s : String)
  | dict (fields : List (String × String))
  deriving DecidableEq

/-- An element of the experience list: a proper mapping, or a malformed
non-mapping element (modelled by the string it would be). -/
inductive ExpItem where
  | entry (e : ExpEntry)
  | mal (s : String)
  deriving DecidableEq

/-- An element of the projects / volunteering lists: a proper mapping or a
malformed non-mapping element. -/
inductive ProjItem where
  | entry (p : Project)
  | mal (s : String)
  deriving DecidableEq

/-- The structured resume dict.  Each spec'd top-level key is an `Option`
field (`none` = key absent); unknown extra keys are carried opaquely in
`extra` (both `optimize_resume`'s `dict.copy()` and the final result keep
them verbatim). -/
structure Resume where
  name : Option String
  email : Option String
  phone : Option String
  linkedin : Option String
  website : Option String
  github : Option String
  summary : Option String
  experience : Option (List ExpItem)
  projects : Option (List ProjItem)
  volunteering : Option (List ProjItem)
  skills : Option (List SkillItem)
  education : Option (List String)
  courses : Option (List String)
  certifications : Option (List String)
  extra : List (String × String)
  deriving DecidableEq

/-- A resume with every key absent. -/
def emptyResume : Resume :=
  ⟨none, none, none, none, none, none, none, none, none, none, none,
   none, none, none, []⟩

/-- Default experience entry used with `List.getD` in theorem statements. -/
def dummyExp : ExpEntry := ⟨"", "", []⟩

/-- Default project entry used with `List.getD` in theorem statements. -/
def dummyProj : Project := ⟨"", "", []⟩

/-! ### Source backfill (`enhance_achievements_from_source`, lines 62-106) -/

/-- The `achievement_indicators` impact-verb list (line 90). -/
def achievementIndicators : List String :=
  ["led", "managed", "created", "developed", "improved", "increased",
   "delivered", "coordinated", "built", "designed"]

/-- Embedding of the `re.split` of line 83: split at every `.`, `!`, `?`, keeping
empty pieces between consecutive delimiters. -/
def splitSentences (s : String) : List String :=
  pySplit (fun c => c == '.' || c == '!' || c == '?') s

/-- The characters stripped from a candidate bullet:
`sentence.strip(' -•*')` (line 93). -/
def bulletChars : List Char := [' ', '-', '•', '*']

/-- Python `sentence.strip(' -•*')`: drop those characters from both
ends. -/
def stripBullet (s : String) : String :=
  String.mk
    (((s.data.dropWhile (fun c => bulletChars.contains c)).reverse.dropWhile
        (fun c => bulletChars.contains c)).reverse)

/-- The concatenated lowercased source text
`f"{resume_text} {linkedin_text}".lower()` (line 68). -/
def srcText (resumeText linkedinText : String) : String :=
  pyLower (resumeText ++ " " ++ linkedinText)

/-- The cleaned qualifying sentences collected by the scan of lines 83-95,
before capitalization: sentences of the source text (split on `.` `!` `?`,
stripped) of length in (20, 150), containing the entry's role or company,
containing an impact verb, whose cleaned form is non-empty and not already
among the entry's achievements.  `roleL` and `companyL` are the lowercased
role and company. -/
def cleanQualifying (sourceText roleL companyL : String)
    (achievements : List String) : List String :=
  (splitSentences sourceText).filterMap (fun raw =>
    let sentence := pyTrim raw
    if 20 < sentence.length ∧ sentence.length < 150 then
      if (roleL ≠ "" ∧ strContains sentence roleL = true)
          ∨ (companyL ≠ "" ∧ strContains sentence companyL = true) then
        if achievementIndicators.any (fun ind => strContains sentence ind) then
          let clean := stripBullet sentence
          if clean ≠ "" ∧ ¬ clean ∈ achievements then some clean else none
        else none
      else none
    else none)

/-- The append loop of lines 98-100: append each bullet in turn, but only
while the list holds fewer than 5 achievements. -/
def appendGuarded (achievements bullets : List String) : List String :=
  bullets.foldl (fun acc b => if acc.length < 5 then acc ++ [b] else acc)
    achievements

/-- The per-entry body of `enhance_achievements_from_source` (lines
70-104): entries with fewer than 3 achievements get up to 2 capitalized
qualifying sentences appended (guarded to 5 total); other entries pass
through unchanged. -/
def enhAch (sourceText role company : String) (achievements : List String) :
    List String :=
  if achievements.length < 3 then
    appendGuarded achievements
      (((cleanQualifying sourceText (pyLower role) (pyLower company)
          achievements).map pyCapitalize).take 2)
  else achievements

/-- Embedding of `enhance_achievements_from_source(experience, resume_text,
linkedin_text)` (lines 62-106) on well-formed entries. -/
def enhanceAchievements (resumeText linkedinText : String)
    (experience : List ExpEntry) : List ExpEntry :=
  if resumeText = "" ∧ linkedinText = "" then experience
  else
    experience.map (fun e =>
      { e with
        achievements :=
          enhAch (srcText resumeText linkedinText) e.role e.company
            e.achievements })

/-! ### Experience optimization (`optimize_experience`, lines 108-160) -/

/-- The `impact_words` list of line 133. -/
def impactWords : List String :=
  ["led", "managed", "increased", "decreased", "improved", "streamlined",
   "optimized", "delivered", "launched", "coordinated", "built", "created",
   "developed", "directed"]

/-- The aggregate text of an entry
(`f"{role} {company} {' '.join(achievements)}"`, line 117). -/
def roleText (e : ExpEntry) : String :=
  e.role ++ " " ++ e.company ++ " " ++ String.intercalate " " e.achievements

/-- The score of one achievement (lines 128-136), in binary64 float
arithmetic as the program computes it: the base relevance is the float
quotient `matches / len(keywords)` (`roundDouble` of the exact ratio),
then `score += 0.3` when the achievement contains a digit and
`score += 0.2` when it contains an impact word, each `+=` adding the
binary64 value of the literal and rounding the sum back to binary64. -/
def achievementFullScore (keywords : List String) (a : String) : Frac :=
  let score := roundDouble (scoreRelevance keywords a)
  let score :=
    if a.data.any Char.isDigit then roundDouble (Frac.add score fl03)
    else score
  if impactWords.any (fun w => strContains (pyLower a) w) then
    roundDouble (Frac.add score fl02)
  else score

/-- The scored achievement list of lines 126-136. -/
def scoredAchievements (keywords : List String) (achievements : List String) :
    List (String × Frac) :=
  achievements.map (fun a => (a, achievementFullScore keywords a))

/-- The per-entry body of `optimize_experience` (lines 115-158) for the
entry at input position `i`: sort achievements by score (stable,
descending) and keep the top `min(max_achievements, max(min(2, n), n))`. -/
def optimizeExperienceEntry (keywords : List String) (i : Nat)
    (e : ExpEntry) : ExpEntry :=
  let relevanceScore := scoreRelevance keywords (roleText e)
  if e.achievements = [] then e
  else
    let sorted := sortDesc (scoredAchievements keywords e.achievements)
    let maxAchievements :=
      if i < 2 then 5
      else if Frac.lt ⟨3, 10⟩ relevanceScore then 4
      else 3
    let minAchievements := min 2 sorted.length
    let numToKeep := min maxAchievements (max minAchievements sorted.length)
    { e with achievements := (sorted.take numToKeep).map Prod.fst }

/-- The `for i, exp in enumerate(experience)` loop of `optimize_experience`
starting at position `i`. -/
def optimizeExperienceGo (keywords : List String) (i : Nat) :
    List ExpEntry → List ExpEntry
  | [] => []
  | e :: rest =>
    optimizeExperienceEntry keywords i e ::
      optimizeExperienceGo keywords (i + 1) rest

/-- Embedding of `optimize_experience(experience, job_keywords)` (lines 108-160) on
well-formed entries. -/
def optimizeExperience (keywords : List String) (experience : List ExpEntry) :
    List ExpEntry :=
  optimizeExperienceGo keywords 0 experience

/-! ### Skills optimization (`optimize_skills`, lines 162-230) -/

/-- The `always_include` allowlist (lines 172-174). -/
def alwaysInclude : List String :=
  ["agile project management", "jira", "airtable", "google workspace",
   "microsoft office"]

/-- The `skills_to_remove` denylist (lines 177-180). -/
def skillsToRemove : List String :=
  ["adobe creative cloud", "unity", "unreal engine", "miro",
   "photoshop", "illustrator", "after effects"]

/-- The `priority_skills` list (lines 183-187). -/
def prioritySkills : List String :=
  ["smartsheet", "ms project", "microsoft project", "atlassian", "jira",
   "confluence", "python", "c++", "javascript", "git", "github", "agile",
   "scrum", "project management", "google workspace", "microsoft office",
   "excel", "airtable"]

/-- The `office_collab` list (line 218). -/
def officeCollab : List String :=
  ["slack", "teams", "office", "workspace", "excel"]

/-- Python truthiness of a skills entry (the `if skill` filter of
line 169): non-empty string or non-empty dict. -/
def skillTruthy : SkillItem → Bool
  | .str s => !s.isEmpty
  | .dict m => !m.isEmpty

/-- First value for a key in an association list (Python `dict.get`). -/
def lookupStr (m : List (String × String)) (k : String) : Option String :=
  match m.find? (fun p => p.1 == k) with
  | some p => some p.2
  | none => none

/-- The apostrophe character, written by code point to keep source text
plain. -/
def apos : Char := Char.ofNat 39

/-- Python `repr` of a string-to-string dict (used by `str(skill)` when a
dict lacks the `skill` key); assumes keys and values need no escaping. -/
def pyReprDict (m : List (String × String)) : String :=
  "\x7b" ++
    String.intercalate ", "
      (m.map (fun p =>
        String.singleton apos ++ p.1 ++ String.singleton apos ++ ": " ++
          String.singleton apos ++ p.2 ++ String.singleton apos)) ++
  "\x7d"

/-- The normalization of line 168:
`str(skill.get('skill', skill) if isinstance(skill, dict) else skill).strip()`
(dict values are assumed to be strings). -/
def skillDisplay : SkillItem → String
  | .str s => pyTrim s
  | .dict m =>
    match lookupStr m "skill" with
    | some v => pyTrim v
    | none => pyTrim (pyReprDict m)

/-- The `skill_strings` normalization (lines 168-169). -/
def skillStrings (skills : List SkillItem) : List String :=
  (skills.filter skillTruthy).map skillDisplay

/-- The continue-chain of lines 191-220 deciding whether one skill string
is kept: empty → drop; denylist substring → drop; else always-include /
priority / job-keyword / office-collaboration substring each suffices. -/
def keepSkill (keywords : List String) (s : String) : Bool :=
  let sl := pyLower s
  if sl.isEmpty then false
  else if skillsToRemove.any (fun t => strContains sl t) then false
  else if alwaysInclude.any (fun t => strContains sl t) then true
  else if prioritySkills.any (fun t => strContains sl t) then true
  else if keywords.any (fun k => strContains sl k) then true
  else officeCollab.any (fun t => strContains sl t)

/-- The case-insensitive first-seen deduplication of lines 222-228
(`seen` holds the lowercased forms already emitted). -/
def dedupCIAux : List String → List String → List String
  | [], _ => []
  | s :: rest, seen =>
    if pyLower s ∈ seen then dedupCIAux rest seen
    else s :: dedupCIAux rest (pyLower s :: seen)

/-- Case-insensitive first-seen deduplication. -/
def dedupCI (l : List String) : List String := dedupCIAux l []

/-- Embedding of `optimize_skills(skills, job_keywords)` (lines 162-230): normalize,
filter, deduplicate case-insensitively, truncate to 12. -/
def optimizeSkills (keywords : List String) (skills : List SkillItem) :
    List String :=
  (dedupCI ((skillStrings skills).filter (keepSkill keywords))).take 12

/-! ### Projects / volunteering optimization (`optimize_projects`,
lines 232-266) -/

/-- The aggregate text of a project
(`f"{project_title} {role} {' '.join(achievements)}"`, line 239). -/
def projectText (p : Project) : String :=
  p.projectTitle ++ " " ++ p.role ++ " " ++
    String.intercalate " " p.achievements

/-- The scored project list of lines 237-241 (base relevance only — no
digit or impact-verb bonus at the entry level). -/
def projectsScored (keywords : List String) (projects : List Project) :
    List (Project × Frac) :=
  projects.map (fun p => (p, scoreRelevance keywords (projectText p)))

/-- The per-kept-project trimming of lines 248-262: keep the top 3
achievements by base relevance (stable, descending). -/
def trimProjectAchievements (keywords : List String) (p : Project) :
    Project :=
  if p.achievements = [] then p
  else
    { p with
      achievements :=
        ((sortDesc
            (p.achievements.map (fun a => (a, scoreRelevance keywords a)))).take
          3).map Prod.fst }

/-- Embedding of `optimize_projects(projects, job_keywords, max_projects)` (lines
232-266) on well-formed entries. -/
def optimizeProjects (keywords : List String) (maxProjects : Nat)
    (projects : List Project) : List Project :=
  ((sortDesc (projectsScored keywords projects)).take maxProjects).map
    (fun pr => trimProjectAchievements keywords pr.1)

/-! ### Length estimation and the optimize facade
(`estimate_content_length`, lines 268-292; `optimize_resume`,
lines 294-356) -/

/-- Validate one experience list element: the Python code calls
`exp.copy()` / `exp.get(...)` on it, which raises `AttributeError`
(modelled `Except.error ()`) on anything that is not a mapping. -/
def toExpEntries : List ExpItem → Except Unit (List ExpEntry)
  | [] => .ok []
  | .entry e :: rest =>
    match toExpEntries rest with
    | .ok l => .ok (e :: l)
    | .error u => .error u
  | .mal _ :: _ => .error ()

/-- Validate one projects / volunteering list, as `toExpEntries`. -/
def toProjects : List ProjItem → Except Unit (List Project)
  | [] => .ok []
  | .entry p :: rest =>
    match toProjects rest with
    | .ok l => .ok (p :: l)
    | .error u => .error u
  | .mal _ :: _ => .error ()

/-- The working state of `optimize_resume` after the per-section
optimizers have run: the fields `estimate_content_length` reads, plus the
volunteering list the governor may clear (`none` = key absent). -/
structure Working where
  name : Option String
  email : Option String
  phone : Option String
  summary : Option String
  experience : List ExpEntry
  projects : List Project
  volunteering : Option (List Project)
  skills : List String
  deriving DecidableEq

/-- The `if structured_result.get(section):` truthiness guard of line 275
followed by `len(str(...))`. -/
def scalarLen (o : Option String) : Nat :=
  match o with
  | some s => if s.isEmpty then 0 else s.length
  | none => 0

/-- Characters contributed by one experience entry (lines 280-281). -/
def expLen (e : ExpEntry) : Nat :=
  (e.role ++ e.company).length + (e.achievements.map String.length).sum

/-- Characters contributed by one project entry (lines 285-286). -/
def projLen (p : Project) : Nat :=
  (p.projectTitle ++ p.role).length + (p.achievements.map String.length).sum

/-- Embedding of `estimate_content_length` (lines 268-292): name, email, phone and
summary when truthy; role+company and achievements of each experience
entry; title+role and achievements of each project; all skill strings.
Volunteering, education, courses and certifications are not counted. -/
def estimateContentLength (w : Working) : Nat :=
  scalarLen w.name + scalarLen w.email + scalarLen w.phone +
    scalarLen w.summary +
    (w.experience.map expLen).sum + (w.projects.map projLen).sum +
    (w.skills.map String.length).sum

/-- Governor step 1 (lines 334-336): clear volunteering when truthy. -/
def stage1 (w : Working) : Working :=
  match w.volunteering with
  | some l => if l ≠ [] then { w with volunteering := some [] } else w
  | none => w

/-- Governor step 2 (lines 339-341): when still over 4200 and more than 2
projects remain, keep the first 2 projects. -/
def stage2 (w : Working) : Working :=
  if 4200 < estimateContentLength w ∧ 2 < w.projects.length then
    { w with projects := w.projects.take 2 }
  else w

/-- Governor step 3 (lines 344-348): when still over 4200, cap every
experience entry's achievements at 3. -/
def stage3 (w : Working) : Working :=
  if 4200 < estimateContentLength w then
    { w with
      experience :=
        w.experience.map (fun e =>
          if 3 < e.achievements.length then
            { e with achievements := e.achievements.take 3 }
          else e) }
  else w

/-- Governor step 4 (lines 351-354): when still over `4200 * 1.3` (the
float product is exactly `5460.0`), keep the first 4 experience
entries. -/
def stage4 (w : Working) : Working :=
  if 5460 < estimateContentLength w then
    if 4 < w.experience.length then { w with experience := w.experience.take 4 }
    else w
  else w

/-- The staged length governor (lines 327-354): triggered only when the
estimate exceeds `4200 * 1.2` (the float product is exactly `5040.0`). -/
def lengthGovernor (w : Working) : Working :=
  if 5040 < estimateContentLength w then stage4 (stage3 (stage2 (stage1 w)))
  else w

/-- The volunteering treatment of `optimize_resume` (lines 321-325): the
key is re-optimized (capped at 2 entries) only when its value is truthy
(a non-empty list); a falsy value (absent key or empty list) is left
as-is; a non-empty list with a non-mapping element raises. -/
def volWorking (kw : List String) :
    Option (List ProjItem) → Except Unit (Option (List Project))
  | none => .ok none
  | some vl =>
    if vl = [] then .ok (some [])
    else
      match toProjects vl with
      | .error u => .error u
      | .ok vols => .ok (some (optimizeProjects kw 2 vols))

/-- The section-optimization phase of `optimize_resume` (lines 296-325):
keyword extraction, source backfill (only when a source text is given),
and the four per-section optimizers; any non-mapping entry in a traversed
list raises.  (Python raises at the first such entry; only whether some
entry is malformed is observable in the result.) -/
def sectionsWorking (r : Resume) (jobDescription resumeText linkedinText :
    String) : Except Unit Working :=
  match toExpEntries (r.experience.getD []) with
  | .error u => .error u
  | .ok exps0 =>
    match toProjects (r.projects.getD []) with
    | .error u => .error u
    | .ok projs =>
      match volWorking (extractJobKeywords jobDescription) r.volunteering with
      | .error u => .error u
      | .ok vol =>
        .ok ⟨r.name, r.email, r.phone, r.summary,
          optimizeExperience (extractJobKeywords jobDescription)
            (if resumeText ≠ "" ∨ linkedinText ≠ "" then
              enhanceAchievements resumeText linkedinText exps0
            else exps0),
          optimizeProjects (extractJobKeywords jobDescription) 3 projs,
          vol,
          optimizeSkills (extractJobKeywords jobDescription)
            (r.skills.getD [])⟩

/-- Reassemble the returned dict: the copy of the input with the four
optimized list fields written back (experience / projects / skills keys
are always written; volunteering keeps its original presence). -/
def rebuildResume (r : Resume) (w : Working) : Resume :=
  { r with
    experience := some (w.experience.map ExpItem.entry),
    projects := some (w.projects.map ProjItem.entry),
    volunteering := w.volunteering.map (fun l => l.map ProjItem.entry),
    skills := some (w.skills.map SkillItem.str) }

/-- Embedding of `optimize_resume(structured_result, job_description, resume_text,
linkedin_text)` (lines 294-356). -/
def optimizeResume (r : Resume) (jobDescription resumeText linkedinText :
    String) : Except Unit Resume :=
  match sectionsWorking r jobDescription resumeText linkedinText with
  | .error u => .error u
  | .ok w => .ok (rebuildResume r (lengthGovernor w))

/-- Python `str(skill)` for a raw skills entry (no strip). -/
def skillRawStr : SkillItem → String
  | .str s => s
  | .dict m => pyReprDict m

/-- The estimate `estimate_content_length` applied to a raw input resume (used to state
claims about "the resume's estimated content length"); traversing a
malformed entry raises. -/
def estimateOfResume (r : Resume) : Except Unit Nat :=
  match toExpEntries (r.experience.getD []), toProjects (r.projects.getD [])
    with
  | .ok es, .ok ps =>
    .ok (scalarLen r.name + scalarLen r.email + scalarLen r.phone +
      scalarLen r.summary + (es.map expLen).sum + (ps.map projLen).sum +
      ((r.skills.getD []).map (fun s => (skillRawStr s).length)).sum)
  | _, _ => .error ()

/-! ### Heap model of the experience pipeline (for the aliasing claim)

`enhance_achievements_from_source` mutates the achievement *list object*
of the input entry in place (`achievements = exp.get('achievements', []);
achievements.append(...)`) and stores the same object into the shallow
copy, so the caller's input resume observes the appended bullets.  The
model makes the achievement lists heap cells: a `Store` is the heap, an
entry holds a reference `achRef` into it.  `optimize_experience` builds
fresh lists (allocations at the end of the store) except when an entry's
achievement list is empty, in which case the copy shares the old cell.
The governor's step-3 truncation mutates the cells held by the *output*
entries; its trigger (and step 4's) depends on the whole resume's
estimate, which is outside this fragment, so both are parametrized by an
arbitrary Boolean covering either outcome. -/

/-- Heap of achievement lists, indexed by position. -/
abbrev Store : Type := List (List String)

/-- An experience entry whose achievements key holds a reference into the
store. -/
structure ExpEntryH where
  role : String
  company : String
  achRef : Nat
  deriving DecidableEq

/-- Default heap entry used with `List.getD` in theorem statements. -/
def dummyExpH : ExpEntryH := ⟨"", "", 0⟩

/-- Read an achievement-list cell. -/
def readAch (σ : Store) (r : Nat) : List String := σ.getD r []

/-- Overwrite an achievement-list cell. -/
def writeAch (σ : Store) (r : Nat) (v : List String) : Store := σ.set r v

/-- The loop body of `enhance_achievements_from_source` on heap entries:
the mutation happens through the entry's own reference, and the shallow
copy keeps that same reference. -/
def enhanceHGo (sourceText : String) :
    List ExpEntryH → Store → List ExpEntryH × Store
  | [], σ => ([], σ)
  | e :: rest, σ =>
    let achs := readAch σ e.achRef
    let σ1 := writeAch σ e.achRef (enhAch sourceText e.role e.company achs)
    let (out, σ2) := enhanceHGo sourceText rest σ1
    (e :: out, σ2)

/-- The backfill `enhance_achievements_from_source` on heap entries (lines 62-106). -/
def enhanceH (resumeText linkedinText : String) (es : List ExpEntryH)
    (σ : Store) : List ExpEntryH × Store :=
  if resumeText = "" ∧ linkedinText = "" then (es, σ)
  else enhanceHGo (srcText resumeText linkedinText) es σ

/-- The pure achievements an entry ends with after `optimize_experience`
(lines 115-158), given its stored list. -/
def optimizedAchList (keywords : List String) (i : Nat) (role company :
    String) (achs : List String) : List String :=
  (optimizeExperienceEntry keywords i ⟨role, company, achs⟩).achievements

/-- The optimizer `optimize_experience` on heap entries: each entry is shallow-copied;
when its achievement list is non-empty the copy's `achievements` key is
set to a *new* list (a fresh cell appended to the store), otherwise the
copy shares the input's cell. -/
def optimizeExperienceHGo (keywords : List String) (i : Nat) :
    List ExpEntryH → Store → List ExpEntryH × Store
  | [], σ => ([], σ)
  | e :: rest, σ =>
    let achs := readAch σ e.achRef
    if achs = [] then
      let (out, σ1) := optimizeExperienceHGo keywords (i + 1) rest σ
      (e :: out, σ1)
    else
      let e1 : ExpEntryH := { e with achRef := σ.length }
      let σ1 := σ ++ [optimizedAchList keywords i e.role e.company achs]
      let (out, σ2) := optimizeExperienceHGo keywords (i + 1) rest σ1
      (e1 :: out, σ2)

/-- The optimizer `optimize_experience` on heap entries. -/
def optimizeExperienceH (keywords : List String) (es : List ExpEntryH)
    (σ : Store) : List ExpEntryH × Store :=
  optimizeExperienceHGo keywords 0 es σ

/-- Governor step 3 on heap entries (lines 344-348): truncates, *in
place*, the achievement cell of every (post-optimization) entry holding
more than 3 achievements. -/
def stage3H (es : List ExpEntryH) (σ : Store) : Store :=
  es.foldl
    (fun σ e =>
      let a := readAch σ e.achRef
      if 3 < a.length then writeAch σ e.achRef (a.take 3) else σ)
    σ

/-- The experience pipeline of `optimize_resume` on the heap: backfill,
optimize, then (depending on the length estimate, abstracted by `b3` and
`b4`) the governor's step-3 in-place truncation and step-4 entry-list
truncation. -/
def experiencePipelineH (jobDescription resumeText linkedinText : String)
    (b3 b4 : Bool) (es : List ExpEntryH) (σ : Store) :
    List ExpEntryH × Store :=
  let keywords := extractJobKeywords jobDescription
  let (es1, σ1) :=
    if resumeText ≠ "" ∨ linkedinText ≠ "" then
      enhanceH resumeText linkedinText es σ
    else (es, σ)
  let (es2, σ2) := optimizeExperienceH keywords es1 σ1
  let σ3 := if b3 then stage3H es2 σ2 else σ2
  let es4 := if b4 then es2.take 4 else es2
  (es4, σ3)

/-! ### Claim statements and concrete instances -/

/-- Structural validity of a resume: every entry of the experience,
projects and volunteering lists is a mapping. -/
def C2Valid (r : Resume) : Prop :=
  (∀ x ∈ r.experience.getD [], ∃ e, x = ExpItem.entry e) ∧
  (∀ x ∈ r.projects.getD [], ∃ p, x = ProjItem.entry p) ∧
  (∀ x ∈ r.volunteering.getD [], ∃ p, x = ProjItem.entry p)

/-- Shape preservation of `optimize_resume` (claim C3, amended): every
scalar top-level key keeps its value, extra keys are kept verbatim,
experience / projects / volunteering values in the output consist of
mappings, the skills value consists of strings, and the volunteering
key's presence is preserved.  (The experience / projects / skills keys
are always present in the output.) -/
def C3Shape (r o : Resume) : Prop :=
  o.name = r.name ∧ o.email = r.email ∧ o.phone = r.phone ∧
  o.linkedin = r.linkedin ∧ o.website = r.website ∧ o.github = r.github ∧
  o.summary = r.summary ∧ o.education = r.education ∧
  o.courses = r.courses ∧ o.certifications = r.certifications ∧
  o.extra = r.extra ∧
  (∃ l : List ExpEntry, o.experience = some (l.map ExpItem.entry)) ∧
  (∃ l : List Project, o.projects = some (l.map ProjItem.entry)) ∧
  (∃ l : List String, o.skills = some (l.map SkillItem.str)) ∧
  (r.volunteering.isSome ↔ o.volunteering.isSome) ∧
  (o.volunteering = none ∨ ∃ l : List Project, o.volunteering = some (l.map ProjItem.entry))

/-- What `enhance_achievements_from_source` does to each entry (claim C5,
amended): length and order preserved; entries with at least 3
achievements are untouched; otherwise the original achievement list is
extended by the capitalization of at most 2 cleaned sentences, none of
which (in its *pre-capitalization* form) equals an existing achievement;
a touched entry ends with at most 5 achievements. -/
def C5Post (resumeText linkedinText : String) (es : List ExpEntry) : Prop :=
  (enhanceAchievements resumeText linkedinText es).length = es.length ∧
  ∀ i, i < es.length →
    ((enhanceAchievements resumeText linkedinText es).getD i dummyExp).role =
        (es.getD i dummyExp).role ∧
    ((enhanceAchievements resumeText linkedinText es).getD i
        dummyExp).company = (es.getD i dummyExp).company ∧
    (3 ≤ (es.getD i dummyExp).achievements.length →
      (enhanceAchievements resumeText linkedinText es).getD i dummyExp =
        es.getD i dummyExp) ∧
    (∃ l : List String, ((enhanceAchievements resumeText linkedinText es).getD i
          dummyExp).achievements =
        (es.getD i dummyExp).achievements ++ l.map pyCapitalize ∧
      l.length ≤ 2 ∧ ∀ s ∈ l, ¬ s ∈ (es.getD i dummyExp).achievements) ∧
    ((es.getD i dummyExp).achievements.length < 3 →
      ((enhanceAchievements resumeText linkedinText es).getD i
          dummyExp).achievements.length ≤ 5)

/-- What `optimize_experience` does to each entry (claim C6): same length
and order, role and company preserved, and the entry at position `i`
keeps exactly `min(cap_i, n_i)` achievements, where `cap_i` is 5 for the
first two entries, else 4 when the aggregate relevance of role + company
+ achievements exceeds `0.3`, else 3; at least `min(2, n_i)` are kept. -/
def C6Post (kw : List String) (es : List ExpEntry) : Prop :=
  (optimizeExperience kw es).length = es.length ∧
  ∀ i, i < es.length →
    ((optimizeExperience kw es).getD i dummyExp).role =
        (es.getD i dummyExp).role ∧
    ((optimizeExperience kw es).getD i dummyExp).company =
        (es.getD i dummyExp).company ∧
    ((optimizeExperience kw es).getD i dummyExp).achievements.length =
      min
        (if i < 2 then 5
         else if Frac.lt ⟨3, 10⟩
             (scoreRelevance kw (roleText (es.getD i dummyExp))) then 4
         else 3)
        (es.getD i dummyExp).achievements.length ∧
    min 2 (es.getD i dummyExp).achievements.length ≤
      ((optimizeExperience kw es).getD i dummyExp).achievements.length

/-- What `optimize_skills` guarantees (claim C8): at most 12 results; no
result matches the denylist; every result is justified by one of the four
inclusion checks; results are case-insensitively distinct and keep the
first-seen scan order; and the concrete denylist scenario. -/
def C8Post (kw : List String) (skills : List SkillItem) : Prop :=
  (optimizeSkills kw skills).length ≤ 12 ∧
  (∀ s ∈ optimizeSkills kw skills,
    ¬ skillsToRemove.any (fun t => strContains (pyLower s) t) = true) ∧
  (∀ s ∈ optimizeSkills kw skills,
    alwaysInclude.any (fun t => strContains (pyLower s) t) = true ∨
    prioritySkills.any (fun t => strContains (pyLower s) t) = true ∨
    kw.any (fun k => strContains (pyLower s) k) = true ∨
    officeCollab.any (fun t => strContains (pyLower s) t) = true) ∧
  (optimizeSkills kw skills).Pairwise (fun a b => pyLower a ≠ pyLower b) ∧
  List.Sublist (optimizeSkills kw skills) (skillStrings skills) ∧
  optimizeSkills kw
      [.str "Photoshop", .str "Python", .str "Smartsheet", .str "Unity"] =
    ["Python", "Smartsheet"]

/-- What `optimize_projects` guarantees (claim C9): exactly
`min(max_projects, n)` entries are kept; every kept entry comes from the
input (title and role intact, achievements a subset of the original, at
most 3 of them), and the kept achievements are the entry's *top* 3 by
base relevance: they appear in non-increasing base-score order, and the
original achievements split (as a multiset) into the kept ones plus
dropped ones each scoring no more than every kept one; kept entries are
ordered by non-increasing base relevance of the aggregate entry text (no
bonuses); and through the facade, the returned projects list has at most
3 entries and the volunteering list at most 2. -/
def C9Post (kw : List String) (maxp : Nat) (ps : List Project) (r : Resume)
    (jd rt lt : String) : Prop :=
  (optimizeProjects kw maxp ps).length = min maxp ps.length ∧
  (∀ p ∈ optimizeProjects kw maxp ps, ∃ q ∈ ps,
    p.projectTitle = q.projectTitle ∧ p.role = q.role ∧
    (∀ a ∈ p.achievements, a ∈ q.achievements) ∧
    p.achievements.length ≤ 3 ∧
    p.achievements.Pairwise
      (fun a b => Frac.le (scoreRelevance kw b) (scoreRelevance kw a)) ∧
    ∃ dropped : List String,
      List.Perm (p.achievements ++ dropped) q.achievements ∧
      ∀ b ∈ dropped, ∀ a ∈ p.achievements,
        Frac.le (scoreRelevance kw b) (scoreRelevance kw a)) ∧
  ((sortDesc (projectsScored kw ps)).take maxp).Pairwise
    (fun x y => Frac.le y.2 x.2) ∧
  (∀ o, optimizeResume r jd rt lt = .ok o →
    (∀ l, o.projects = some l → l.length ≤ 3) ∧
    (∀ l, o.volunteering = some l → l.length ≤ 2))

/-- The aliasing behavior of the heap-modelled experience pipeline (claim
C10): given distinct, in-range achievement references and a non-empty
source text, the references of the entries returned by the backfill are
those of the input, and after the whole pipeline the cell referenced by
each *input* entry holds exactly the backfilled list (original
achievements plus appended bullets) — the caller's input structure
observes the added bullets. -/
def C10Post (jobDescription resumeText linkedinText : String) (b3 b4 : Bool)
    (es : List ExpEntryH) (σ : Store) : Prop :=
  ((enhanceH resumeText linkedinText es σ).1.map ExpEntryH.achRef =
    es.map ExpEntryH.achRef) ∧
  ∀ i, i < es.length →
    readAch
        (experiencePipelineH jobDescription resumeText linkedinText b3 b4
          es σ).2
        ((es.getD i dummyExpH).achRef) =
      enhAch (srcText resumeText linkedinText)
        (es.getD i dummyExpH).role (es.getD i dummyExpH).company
        (readAch σ ((es.getD i dummyExpH).achRef))

/-- The skills list of the spec's concrete denylist scenario. -/
def fourSkills : List SkillItem :=
  [.str "Photoshop", .str "Python", .str "Smartsheet", .str "Unity"]

/-- A resume whose only content is a dict-shaped skills entry. -/
def c3CexResume : Resume :=
  { emptyResume with skills := some [.dict [("skill", "Python")]] }

/-- The working state `optimize_resume` reaches on `c3CexResume`. -/
def c3CexWorking : Working :=
  ⟨none, none, none, none, [], [], none, ["Python"]⟩

/-- The working state `optimize_resume` reaches on `emptyResume`. -/
def c3wWorking : Working :=
  ⟨none, none, none, none, [], [], none, []⟩

/-- A 46-character skill string matching the denylist (`unity`). -/
def bigSkill : String := "unity" ++ String.mk (List.replicate 41 'z')

/-- A resume whose estimated length (5530) exceeds `budget * 1.3 = 5460`,
but only because of 120 denylisted skills that `optimize_skills` drops,
so the governor never fires and its 5 experience entries all survive. -/
def c4Resume : Resume :=
  { emptyResume with
    experience :=
      some ((List.replicate 5 (⟨"r", "c", []⟩ : ExpEntry)).map
        ExpItem.entry),
    skills := some (List.replicate 120 (SkillItem.str bigSkill)) }

/-- A 200-character role string. -/
def role200 : String := String.mk (List.replicate 200 'r')

/-- A resume whose irreducible role strings keep it over `budget * 1.3`
through every governor stage. -/
def c4wResume : Resume :=
  { emptyResume with
    experience :=
      some ((List.replicate 28 (⟨role200, "", []⟩ : ExpEntry)).map
        ExpItem.entry) }

/-- The working state `optimize_resume` reaches on `c4wResume`. -/
def c4wWorking : Working :=
  ⟨none, none, none, none,
    optimizeExperience (extractJobKeywords "")
      (List.replicate 28 ⟨role200, "", []⟩), [], none, []⟩

/-- The experience entry of the duplicate-bullet scenario (claim C5). -/
def c5CexEntry : ExpEntry :=
  ⟨"manager", "acme", ["Led projects at acme corp"]⟩

/-- The source text of the duplicate-bullet scenario. -/
def c5CexSource : String := "led projects at acme corp."

/-- A two-element scored list with tied scores (claim C7's witness). -/
def c7Tie : List (String × Frac) := [("b", ⟨0, 1⟩), ("a", ⟨0, 1⟩)]

/-! ## Theorems -/

/-! ### A first block of helper lemmas about `Frac` and `sortDesc` -/

theorem Frac.le_total (a b : Frac) : Frac.le a b ∨ Frac.le b a :=
  Nat.le_total _ _

theorem Frac.le_of_not_le {a b : Frac} (h : ¬ Frac.le a b) : Frac.le b a :=
  (Frac.le_total b a).resolve_right h

theorem Frac.lt_of_not_le {a b : Frac} (h : ¬ Frac.le a b) : Frac.lt b a :=
  Nat.lt_of_not_le h

theorem Frac.le_of_lt {a b : Frac} (h : Frac.lt a b) : Frac.le a b :=
  Nat.le_of_lt h

theorem Frac.le_trans {a b c : Frac} (hb : 0 < b.den)
    (h1 : Frac.le a b) (h2 : Frac.le b c) : Frac.le a c := by
  unfold Frac.le at *
  have h3 : a.num * c.den * b.den ≤ c.num * a.den * b.den := by
    calc a.num * c.den * b.den = (a.num * b.den) * c.den := by ring
      _ ≤ (b.num * a.den) * c.den := Nat.mul_le_mul_right _ h1
      _ = (b.num * c.den) * a.den := by ring
      _ ≤ (c.num * b.den) * a.den := Nat.mul_le_mul_right _ h2
      _ = c.num * a.den * b.den := by ring
  exact Nat.le_of_mul_le_mul_right h3 hb

theorem Frac.lt_of_lt_of_le {a b c : Frac} (hc : 0 < c.den)
    (h1 : Frac.lt a b) (h2 : Frac.le b c) : Frac.lt a c := by
  unfold Frac.lt Frac.le at *
  have h3 : a.num * c.den * b.den < c.num * a.den * b.den := by
    calc a.num * c.den * b.den = (a.num * b.den) * c.den := by ring
      _ < (b.num * a.den) * c.den := mul_lt_mul_of_pos_right h1 hc
      _ = (b.num * c.den) * a.den := by ring
      _ ≤ (c.num * b.den) * a.den := Nat.mul_le_mul_right _ h2
      _ = c.num * a.den * b.den := by ring
  exact lt_of_mul_lt_mul_right h3 (Nat.zero_le _)

theorem Frac.lt_of_le_of_lt {a b c : Frac} (ha : 0 < a.den)
    (h1 : Frac.le a b) (h2 : Frac.lt b c) : Frac.lt a c := by
  unfold Frac.lt Frac.le at *
  have h3 : a.num * c.den * b.den < c.num * a.den * b.den := by
    calc a.num * c.den * b.den = (a.num * b.den) * c.den := by ring
      _ ≤ (b.num * a.den) * c.den := Nat.mul_le_mul_right _ h1
      _ = (b.num * c.den) * a.den := by ring
      _ < (c.num * b.den) * a.den := mul_lt_mul_of_pos_right h2 ha
      _ = c.num * a.den * b.den := by ring
  exact lt_of_mul_lt_mul_right h3 (Nat.zero_le _)

theorem Frac.le_of_eqv_of_le {a b c : Frac} (hb : 0 < b.den)
    (h1 : Frac.eqv a b) (h2 : Frac.le b c) : Frac.le a c := by
  unfold Frac.eqv Frac.le at *
  have h3 : a.num * c.den * b.den ≤ c.num * a.den * b.den := by
    calc a.num * c.den * b.den = (a.num * b.den) * c.den := by ring
      _ = (b.num * a.den) * c.den := by rw [h1]
      _ = (b.num * c.den) * a.den := by ring
      _ ≤ (c.num * b.den) * a.den := Nat.mul_le_mul_right _ h2
      _ = c.num * a.den * b.den := by ring
  exact Nat.le_of_mul_le_mul_right h3 hb

theorem scoreRelevance_den_pos (keywords : List String) (text : String) :
    0 < (scoreRelevance keywords text).den := by
  unfold scoreRelevance
  split
  · exact Nat.one_pos
  · rename_i h
    push_neg at h
    simpa [List.length_pos] using h.2

theorem Frac.eqv_symm {a b : Frac} (h : Frac.eqv a b) : Frac.eqv b a :=
  h.symm

theorem Frac.le_of_eqv {a b : Frac} (h : Frac.eqv a b) : Frac.le a b :=
  Nat.le_of_eq h

theorem Frac.eqv_of_le_of_le {a b : Frac} (h1 : Frac.le a b)
    (h2 : Frac.le b a) : Frac.eqv a b :=
  Nat.le_antisymm h1 h2

set_option maxRecDepth 4000 in
theorem roundDouble_den_pos (q : Frac) : 0 < (roundDouble q).den := by
  simp only [roundDouble]
  repeat' split
  all_goals positivity

theorem achievementFullScore_den_pos (keywords : List String) (a : String) :
    0 < (achievementFullScore keywords a).den := by
  simp only [achievementFullScore]
  split <;> split <;> exact roundDouble_den_pos _

theorem length_insertDesc {α : Type} (x : α × Frac) (l : List (α × Frac)) :
    (insertDesc x l).length = l.length + 1 := by
  induction l with
  | nil => rfl
  | cons y ys ih =>
    simp only [insertDesc]
    split <;> simp [ih]

theorem length_sortDesc {α : Type} (l : List (α × Frac)) :
    (sortDesc l).length = l.length := by
  induction l with
  | nil => rfl
  | cons x xs ih => simp [sortDesc, length_insertDesc, ih]

theorem mem_insertDesc {α : Type} {y x : α × Frac} {l : List (α × Frac)} :
    y ∈ insertDesc x l ↔ y = x ∨ y ∈ l := by
  induction l with
  | nil => simp [insertDesc]
  | cons z zs ih =>
    simp only [insertDesc]
    split
    · simp
    · simp only [List.mem_cons, ih]
      tauto

theorem mem_sortDesc {α : Type} {y : α × Frac} {l : List (α × Frac)} :
    y ∈ sortDesc l ↔ y ∈ l := by
  induction l with
  | nil => simp [sortDesc]
  | cons x xs ih => simp [sortDesc, mem_insertDesc, ih]

theorem insertDesc_mapFst {α β : Type} (g : α → β) (x : α × Frac)
    (l : List (α × Frac)) :
    insertDesc (g x.1, x.2) (mapFst g l) = mapFst g (insertDesc x l) := by
  induction l with
  | nil => rfl
  | cons y ys ih =>
    simp only [mapFst, List.map_cons, insertDesc]
    split <;> simp_all [mapFst]

theorem sortDesc_mapFst {α β : Type} (g : α → β) (l : List (α × Frac)) :
    sortDesc (mapFst g l) = mapFst g (sortDesc l) := by
  induction l with
  | nil => rfl
  | cons x xs ih =>
    have h1 : mapFst g (x :: xs) = (g x.1, x.2) :: mapFst g xs := rfl
    rw [h1]
    show insertDesc (g x.1, x.2) (sortDesc (mapFst g xs)) =
      mapFst g (insertDesc x (sortDesc xs))
    rw [ih, insertDesc_mapFst]

theorem mapFst_withIdx {α : Type} (n : Nat) (l : List (α × Frac)) :
    mapFst Prod.snd (withIdx n l) = l := by
  induction l generalizing n with
  | nil => rfl
  | cons p rest ih => simp [withIdx, mapFst] at ih ⊢; exact ih _

theorem mem_withIdx_den {α : Type} {p : (Nat × α) × Frac} {n : Nat}
    {l : List (α × Frac)} (h : p ∈ withIdx n l) : ∃ q ∈ l, p.2 = q.2 := by
  induction l generalizing n with
  | nil => simp [withIdx] at h
  | cons q rest ih =>
    simp only [withIdx, List.mem_cons] at h
    rcases h with h | h
    · exact ⟨q, List.mem_cons_self _ _, by rw [h]⟩
    · obtain ⟨q', hq', he⟩ := ih h
      exact ⟨q', List.mem_cons_of_mem _ hq', he⟩

theorem mem_withIdx_idx {α : Type} {p : (Nat × α) × Frac} {n : Nat}
    {l : List (α × Frac)} (h : p ∈ withIdx n l) : n ≤ p.1.1 := by
  induction l generalizing n with
  | nil => simp [withIdx] at h
  | cons q rest ih =>
    simp only [withIdx, List.mem_cons] at h
    rcases h with h | h
    · simp [h]
    · exact Nat.le_of_succ_le (ih h)

theorem pairwise_lt_withIdx {α : Type} (n : Nat) (l : List (α × Frac)) :
    (withIdx n l).Pairwise (fun p q => p.1.1 < q.1.1) := by
  induction l generalizing n with
  | nil => exact List.Pairwise.nil
  | cons p rest ih =>
    refine List.Pairwise.cons (fun q hq => ?_) (ih (n + 1))
    exact Nat.lt_of_lt_of_le (Nat.lt_succ_self n) (mem_withIdx_idx hq)

theorem lexAfter_of_le {α : Type} {f : α → Nat} {x z : α × Frac}
    (hle : Frac.le z.2 x.2) (hidx : f x.1 < f z.1) : lexAfter f x z := by
  by_cases h : Frac.le x.2 z.2
  · exact Or.inr ⟨Frac.eqv_of_le_of_le h hle, hidx⟩
  · exact Or.inl (Frac.lt_of_not_le h)

theorem le_of_lexAfter {α : Type} {f : α → Nat} {x y : α × Frac}
    (h : lexAfter f x y) : Frac.le y.2 x.2 := by
  rcases h with h | ⟨h, _⟩
  · exact Frac.le_of_lt h
  · exact Frac.le_of_eqv (Frac.eqv_symm h)

theorem pairwise_lexAfter_insertDesc {α : Type} {f : α → Nat}
    {x : α × Frac} {l : List (α × Frac)} (hx : 0 < x.2.den)
    (hl : ∀ p ∈ l, 0 < p.2.den) (hidx : ∀ p ∈ l, f x.1 < f p.1)
    (h : l.Pairwise (lexAfter f)) :
    (insertDesc x l).Pairwise (lexAfter f) := by
  induction l with
  | nil => simp [insertDesc, lexAfter]
  | cons y ys ih =>
    rw [List.pairwise_cons] at h
    obtain ⟨hy, hys⟩ := h
    have hyden : 0 < y.2.den := hl y (List.mem_cons_self _ _)
    simp only [insertDesc]
    split
    · rename_i hc
      refine List.Pairwise.cons (fun z hz => ?_)
        (List.Pairwise.cons hy hys)
      have hzidx : f x.1 < f z.1 := hidx z hz
      rcases List.mem_cons.mp hz with rfl | hz'
      · exact lexAfter_of_le hc hzidx
      · have hzle : Frac.le z.2 y.2 := le_of_lexAfter (hy z hz')
        exact lexAfter_of_le (Frac.le_trans hyden hzle hc) hzidx
    · rename_i hc
      refine List.Pairwise.cons (fun z hz => ?_)
        (ih (fun p hp => hl p (List.mem_cons_of_mem _ hp))
          (fun p hp => hidx p (List.mem_cons_of_mem _ hp)) hys)
      rcases mem_insertDesc.mp hz with rfl | hz'
      · exact Or.inl (Frac.lt_of_not_le hc)
      · exact hy z hz'

theorem pairwise_lexAfter_sortDesc {α : Type} (f : α → Nat)
    (l : List (α × Frac)) (hden : ∀ p ∈ l, 0 < p.2.den)
    (hidx : l.Pairwise (fun p q => f p.1 < f q.1)) :
    (sortDesc l).Pairwise (lexAfter f) := by
  induction l with
  | nil => exact List.Pairwise.nil
  | cons x xs ih =>
    rw [List.pairwise_cons] at hidx
    exact pairwise_lexAfter_insertDesc
      (hden x (List.mem_cons_self _ _))
      (fun p hp => hden p (List.mem_cons_of_mem _ (mem_sortDesc.mp hp)))
      (fun p hp => hidx.1 p (mem_sortDesc.mp hp))
      (ih (fun p hp => hden p (List.mem_cons_of_mem _ hp)) hidx.2)

theorem pairwise_le_sortDesc {α : Type} (l : List (α × Frac))
    (hden : ∀ p ∈ l, 0 < p.2.den) :
    (sortDesc l).Pairwise (fun x y => Frac.le y.2 x.2) := by
  have h1 : (sortDesc (withIdx 0 l)).Pairwise (lexAfter Prod.fst) :=
    pairwise_lexAfter_sortDesc Prod.fst (withIdx 0 l)
      (fun p hp => by
        obtain ⟨q, hq, he⟩ := mem_withIdx_den hp
        rw [he]; exact hden q hq)
      (pairwise_lt_withIdx 0 l)
  have h2 : sortDesc l = mapFst Prod.snd (sortDesc (withIdx 0 l)) := by
    conv_lhs => rw [← mapFst_withIdx 0 l]
    exact sortDesc_mapFst Prod.snd (withIdx 0 l)
  rw [h2]
  unfold mapFst
  rw [List.pairwise_map]
  exact h1.imp (fun h => le_of_lexAfter h)

theorem perm_insertDesc {α : Type} (x : α × Frac) (l : List (α × Frac)) :
    List.Perm (insertDesc x l) (x :: l) := by
  induction l with
  | nil => exact List.Perm.refl _
  | cons y ys ih =>
    simp only [insertDesc]
    split
    · exact List.Perm.refl _
    · exact (ih.cons y).trans (List.Perm.swap x y ys)

theorem perm_sortDesc {α : Type} (l : List (α × Frac)) :
    List.Perm (sortDesc l) l := by
  induction l with
  | nil => exact List.Perm.refl _
  | cons x xs ih =>
    exact (perm_insertDesc x (sortDesc xs)).trans (ih.cons x)

theorem take_drop_le_sortDesc {α : Type} (k : Nat) (l : List (α × Frac))
    (hden : ∀ p ∈ l, 0 < p.2.den) :
    ∀ x ∈ (sortDesc l).take k, ∀ y ∈ (sortDesc l).drop k,
      Frac.le y.2 x.2 := by
  have h := pairwise_le_sortDesc l hden
  rw [← List.take_append_drop k (sortDesc l), List.pairwise_append] at h
  exact h.2.2

/-! ### Claim C1 (keyword extraction on the empty description) -/

/-- C1 is false on the code: `extract_job_keywords("")` is *not* the empty
set, because the `job_specific_keywords` are added unconditionally. -/
theorem spec_C1_cex : extractJobKeywords "" ≠ [] := by decide

/-- C1 (amended): `extract_job_keywords("")` returns exactly the ten
unconditional `job_specific_keywords`; `optimize` called with an empty
job description therefore operates with this fixed ten-term vocabulary,
not with an empty one. -/
theorem spec_C1 : extractJobKeywords "" = jobSpecificKeywords := by decide

/-! ### Claim C8 (skills filtering) -/

theorem dedupCIAux_sublist (l seen : List String) :
    List.Sublist (dedupCIAux l seen) l := by
  induction l generalizing seen with
  | nil => exact List.Sublist.refl []
  | cons s rest ih =>
    simp only [dedupCIAux]
    split
    · exact (ih seen).cons s
    · exact (ih (pyLower s :: seen)).cons₂ s

theorem mem_dedupCIAux_not_seen {s : String} {l seen : List String}
    (h : s ∈ dedupCIAux l seen) : pyLower s ∉ seen := by
  induction l generalizing seen with
  | nil => simp [dedupCIAux] at h
  | cons t rest ih =>
    simp only [dedupCIAux] at h
    split at h
    · exact ih h
    · rename_i hnot
      rcases List.mem_cons.mp h with rfl | h'
      · exact hnot
      · intro hs
        exact ih h' (List.mem_cons_of_mem _ hs)

theorem pairwise_dedupCIAux (l seen : List String) :
    (dedupCIAux l seen).Pairwise (fun a b => pyLower a ≠ pyLower b) := by
  induction l generalizing seen with
  | nil => exact List.Pairwise.nil
  | cons t rest ih =>
    simp only [dedupCIAux]
    split
    · exact ih seen
    · refine List.Pairwise.cons (fun b hb => ?_) (ih (pyLower t :: seen))
      have := mem_dedupCIAux_not_seen hb
      intro he
      exact this (he ▸ List.mem_cons_self _ _)

theorem keepSkill_true {kw : List String} {s : String}
    (h : keepSkill kw s = true) :
    ¬ skillsToRemove.any (fun t => strContains (pyLower s) t) = true ∧
    (alwaysInclude.any (fun t => strContains (pyLower s) t) = true ∨
     prioritySkills.any (fun t => strContains (pyLower s) t) = true ∨
     kw.any (fun k => strContains (pyLower s) k) = true ∨
     officeCollab.any (fun t => strContains (pyLower s) t) = true) := by
  simp only [keepSkill] at h
  split_ifs at h with h1 h2 h3 h4 h5
  · exact ⟨h2, Or.inl h3⟩
  · exact ⟨h2, Or.inr (Or.inl h4)⟩
  · exact ⟨h2, Or.inr (Or.inr (Or.inl h5))⟩
  · exact ⟨h2, Or.inr (Or.inr (Or.inr h))⟩

/-- C8: `optimize_skills` drops denylist matches unconditionally, includes
only skills justified by the always-include / priority / keyword / office
checks, deduplicates case-insensitively preserving first-seen order, caps
the result at 12, and maps `["Photoshop", "Python", "Smartsheet",
"Unity"]` to exactly `["Python", "Smartsheet"]`. -/
theorem spec_C8 (kw : List String) (skills : List SkillItem) :
    C8Post kw skills := by
  have hmem : ∀ s ∈ optimizeSkills kw skills, keepSkill kw s = true := by
    intro s hs
    have hs2 : s ∈ dedupCI ((skillStrings skills).filter (keepSkill kw)) :=
      List.mem_of_mem_take hs
    have hs3 : s ∈ (skillStrings skills).filter (keepSkill kw) :=
      (dedupCIAux_sublist _ _).subset hs2
    exact (List.mem_filter.mp hs3).2
  refine ⟨List.length_take_le _ _, ?_, ?_, ?_, ?_, ?_⟩
  · intro s hs
    exact (keepSkill_true (hmem s hs)).1
  · intro s hs
    exact (keepSkill_true (hmem s hs)).2
  · exact (pairwise_dedupCIAux _ _).sublist (List.take_sublist _ _)
  · exact ((List.take_sublist _ _).trans (dedupCIAux_sublist _ _)).trans
      (List.filter_sublist _)
  · rfl

/-- C8 witness at a concrete input: "Python" is kept and indeed matches no
denylist term. -/
theorem spec_C8_witness :
    "Python" ∈ optimizeSkills [] fourSkills ∧
    ¬ skillsToRemove.any
        (fun t => strContains (pyLower "Python") t) = true :=
  ⟨by decide, (spec_C8 [] fourSkills).2.1 "Python" (by decide)⟩

/-! ### Claim C5 (source backfill) -/

theorem getD_map_of_lt {α β : Type} (f : α → β) (l : List α) (d : α)
    (d2 : β) (i : Nat) (h : i < l.length) :
    (l.map f).getD i d2 = f (l.getD i d) := by
  rw [List.getD_eq_getElem _ _ (by simpa using h),
    List.getD_eq_getElem _ _ h, List.getElem_map]

theorem appendGuarded_eq_append (achs bs : List String)
    (h : achs.length + bs.length ≤ 5) :
    appendGuarded achs bs = achs ++ bs := by
  induction bs generalizing achs with
  | nil => simp [appendGuarded]
  | cons b bs ih =>
    unfold appendGuarded at ih ⊢
    simp only [List.foldl_cons]
    rw [if_pos (by simp at h; omega)]
    rw [ih (achs ++ [b]) (by simp at h ⊢; omega)]
    simp

theorem mem_cleanQualifying_not_mem {src r c : String} {achs : List String}
    {s : String} (h : s ∈ cleanQualifying src r c achs) : ¬ s ∈ achs := by
  simp only [cleanQualifying, List.mem_filterMap] at h
  obtain ⟨raw, _, heq⟩ := h
  split_ifs at heq with h1 h2 h3 h4
  · cases heq
    exact h4.2

theorem enhAch_spec (src role company : String) (achs : List String) :
    (3 ≤ achs.length → enhAch src role company achs = achs) ∧
    (∃ l : List String, enhAch src role company achs =
        achs ++ l.map pyCapitalize ∧ l.length ≤ 2 ∧
        ∀ s ∈ l, ¬ s ∈ achs) ∧
    (achs.length < 3 → (enhAch src role company achs).length ≤ 5) := by
  by_cases hn : achs.length < 3
  · have hb :
        enhAch src role company achs =
          achs ++
            ((cleanQualifying src (pyLower role) (pyLower company)
                achs).take 2).map pyCapitalize := by
      unfold enhAch
      rw [if_pos hn, ← List.map_take]
      exact appendGuarded_eq_append _ _
        (by
          have := List.length_take_le 2
            (cleanQualifying src (pyLower role) (pyLower company) achs)
          simp only [List.length_map]
          omega)
    refine ⟨fun h3 => absurd h3 (by omega), ?_, fun _ => ?_⟩
    · refine ⟨_, hb, List.length_take_le _ _, fun s hs => ?_⟩
      exact mem_cleanQualifying_not_mem (List.mem_of_mem_take hs)
    · rw [hb]
      have := List.length_take_le 2
        (cleanQualifying src (pyLower role) (pyLower company) achs)
      simp only [List.length_append, List.length_map]
      omega
  · have hb : enhAch src role company achs = achs := by
      unfold enhAch
      rw [if_neg hn]
    exact ⟨fun _ => hb, ⟨[], by simp [hb], by simp, by simp⟩,
      fun h => absurd h hn⟩

/-- C5 (amended): `enhance_achievements_from_source` preserves length and
order, modifies only entries with fewer than 3 achievements, appends at
most 2 bullets (never exceeding 5 achievements), and an appended bullet's
*pre-capitalization* form never equals an existing achievement — but the
capitalized bullet it actually appends may duplicate an existing
achievement exactly (see the counterexample). -/
theorem spec_C5 (resumeText linkedinText : String) (es : List ExpEntry) :
    C5Post resumeText linkedinText es := by
  unfold C5Post
  by_cases hrl : resumeText = "" ∧ linkedinText = ""
  · have he : enhanceAchievements resumeText linkedinText es = es := by
      unfold enhanceAchievements
      rw [if_pos hrl]
    rw [he]
    refine ⟨rfl, fun i hi => ⟨rfl, rfl, fun _ => rfl,
      ⟨[], by simp, by simp, by simp⟩, fun h => ?_⟩⟩
    omega
  · have he : enhanceAchievements resumeText linkedinText es =
        es.map (fun e =>
          { e with
            achievements :=
              enhAch (srcText resumeText linkedinText) e.role e.company
                e.achievements }) := by
      unfold enhanceAchievements
      rw [if_neg hrl]
    rw [he]
    refine ⟨by simp, fun i hi => ?_⟩
    rw [getD_map_of_lt _ es dummyExp dummyExp i hi]
    obtain ⟨hu, ⟨l, hl, hl2, hl3⟩, hlen⟩ :=
      enhAch_spec (srcText resumeText linkedinText)
        (es.getD i dummyExp).role (es.getD i dummyExp).company
        (es.getD i dummyExp).achievements
    refine ⟨rfl, rfl, fun h3 => ?_, ⟨l, by simpa using hl, hl2, hl3⟩,
      fun hlt => by simpa using hlen hlt⟩
    show ExpEntry.mk (es.getD i dummyExp).role (es.getD i dummyExp).company
        (enhAch (srcText resumeText linkedinText) (es.getD i dummyExp).role
          (es.getD i dummyExp).company (es.getD i dummyExp).achievements) =
      es.getD i dummyExp
    rw [hu h3]

/-- C5 is false on the code as to exact duplicates: the dedup check
compares the *uncapitalized* cleaned sentence against the existing
achievements, but appends the *capitalized* form, so the backfilled entry
can end with two exactly equal achievement strings. -/
theorem spec_C5_cex :
    (enhanceAchievements c5CexSource "" [c5CexEntry]).map
        ExpEntry.achievements =
      [["Led projects at acme corp", "Led projects at acme corp"]] ∧
    c5CexEntry.achievements = ["Led projects at acme corp"] ∧
    ¬ ((enhanceAchievements c5CexSource "" [c5CexEntry]).getD 0
        dummyExp).achievements.Pairwise (fun a b => a ≠ b) := by
  refine ⟨by decide, by decide, by decide⟩

/-- C5 witness: the amended statement at the concrete duplicate-bullet
input. -/
theorem spec_C5_witness : C5Post c5CexSource "" [c5CexEntry] :=
  spec_C5 c5CexSource "" [c5CexEntry]

/-! ### Claim C6 (experience bullet caps) -/

theorem length_optimizeExperienceGo (kw : List String) (j : Nat)
    (es : List ExpEntry) :
    (optimizeExperienceGo kw j es).length = es.length := by
  induction es generalizing j with
  | nil => rfl
  | cons e rest ih => simp [optimizeExperienceGo, ih]

theorem getD_optimizeExperienceGo (kw : List String) (j : Nat)
    (es : List ExpEntry) (i : Nat) (hi : i < es.length) :
    (optimizeExperienceGo kw j es).getD i dummyExp =
      optimizeExperienceEntry kw (j + i) (es.getD i dummyExp) := by
  induction es generalizing j i with
  | nil => simp at hi
  | cons e rest ih =>
    cases i with
    | zero => simp [optimizeExperienceGo]
    | succ n =>
      simp only [optimizeExperienceGo, List.getD_cons_succ]
      rw [ih (j + 1) n (by simpa using hi)]
      congr 1
      omega

theorem optimizeExperienceEntry_role (kw : List String) (i : Nat)
    (e : ExpEntry) : (optimizeExperienceEntry kw i e).role = e.role := by
  simp only [optimizeExperienceEntry]
  split <;> rfl

theorem optimizeExperienceEntry_company (kw : List String) (i : Nat)
    (e : ExpEntry) :
    (optimizeExperienceEntry kw i e).company = e.company := by
  simp only [optimizeExperienceEntry]
  split <;> rfl

theorem optimizeExperienceEntry_len (kw : List String) (i : Nat)
    (e : ExpEntry) :
    (optimizeExperienceEntry kw i e).achievements.length =
      min
        (if i < 2 then 5
         else if Frac.lt ⟨3, 10⟩ (scoreRelevance kw (roleText e)) then 4
         else 3)
        e.achievements.length := by
  simp only [optimizeExperienceEntry]
  split
  · rename_i h
    simp [h]
  · simp only [List.length_map, List.length_take, length_sortDesc,
      scoredAchievements]
    generalize
      (if i < 2 then 5
       else if Frac.lt ⟨3, 10⟩ (scoreRelevance kw (roleText e)) then 4
       else 3) = c
    omega

/-- C6: `optimize_experience` keeps length and order, preserves role and
company, and entry `i` keeps exactly `min(cap_i, n_i)` achievements with
`cap_i = 5` for the first two entries, `4` when the aggregate relevance
exceeds `0.3`, else `3`; always at least `min(2, n_i)`. -/
theorem spec_C6 (kw : List String) (es : List ExpEntry) : C6Post kw es := by
  unfold C6Post optimizeExperience
  refine ⟨length_optimizeExperienceGo kw 0 es, fun i hi => ?_⟩
  rw [getD_optimizeExperienceGo kw 0 es i hi]
  simp only [Nat.zero_add]
  refine ⟨optimizeExperienceEntry_role kw i _,
    optimizeExperienceEntry_company kw i _,
    optimizeExperienceEntry_len kw i _, ?_⟩
  rw [optimizeExperienceEntry_len]
  have hc : 3 ≤
      (if i < 2 then 5
       else if Frac.lt ⟨3, 10⟩
           (scoreRelevance kw (roleText (es.getD i dummyExp))) then 4
       else 3) := by
    split_ifs <;> omega
  omega

/-- C6 witness: the cap computation at a concrete one-entry input. -/
theorem spec_C6_witness :
    C6Post ["python"] [⟨"r", "c", ["a", "b"]⟩] :=
  spec_C6 ["python"] [⟨"r", "c", ["a", "b"]⟩]

/-! ### Claim C7 (ranking order and stable ties) -/

theorem pairwise_take_sortDesc_scored {α : Type} (g : α → Frac)
    (hg : ∀ a, 0 < (g a).den) (l : List α) (k : Nat) :
    (((sortDesc (l.map (fun a => (a, g a)))).take k).map Prod.fst).Pairwise
      (fun a b => Frac.le (g b) (g a)) := by
  have hden : ∀ p ∈ l.map (fun a => (a, g a)), 0 < p.2.den := by
    intro p hp
    obtain ⟨a, _, rfl⟩ := List.mem_map.mp hp
    exact hg a
  have h1 := pairwise_le_sortDesc _ hden
  have h2 := h1.sublist (List.take_sublist k _)
  rw [List.pairwise_map]
  refine h2.imp_of_mem ?_
  intro a b ha hb hr
  have hsnd : ∀ p ∈ (sortDesc (l.map (fun a => (a, g a)))).take k,
      p.2 = g p.1 := by
    intro p hp
    obtain ⟨q, _, rfl⟩ :=
      List.mem_map.mp (mem_sortDesc.mp (List.mem_of_mem_take hp))
    rfl
  rw [← hsnd a ha, ← hsnd b hb]
  exact hr

theorem mem_optimizeExperienceGo {kw : List String} {j : Nat}
    {es : List ExpEntry} {x : ExpEntry}
    (h : x ∈ optimizeExperienceGo kw j es) :
    ∃ i e, e ∈ es ∧ x = optimizeExperienceEntry kw i e := by
  induction es generalizing j with
  | nil => simp [optimizeExperienceGo] at h
  | cons e rest ih =>
    rcases List.mem_cons.mp h with rfl | h'
    · exact ⟨j, e, List.mem_cons_self _ _, rfl⟩
    · obtain ⟨i, e', he', hx⟩ := ih h'
      exact ⟨i, e', List.mem_cons_of_mem _ he', hx⟩

theorem pairwise_achievements_entry (kw : List String) (i : Nat)
    (e : ExpEntry) :
    (optimizeExperienceEntry kw i e).achievements.Pairwise
      (fun a b =>
        Frac.le (achievementFullScore kw b) (achievementFullScore kw a)) := by
  by_cases h : e.achievements = []
  · have he : optimizeExperienceEntry kw i e = e := by
      simp [optimizeExperienceEntry, h]
    rw [he, h]
    exact List.Pairwise.nil
  · have he : (optimizeExperienceEntry kw i e).achievements =
        ((sortDesc (scoredAchievements kw e.achievements)).take
          (min
            (if i < 2 then 5
             else if Frac.lt ⟨3, 10⟩ (scoreRelevance kw (roleText e)) then 4
             else 3)
            (max (min 2 (sortDesc (scoredAchievements kw e.achievements)).length)
              (sortDesc (scoredAchievements kw e.achievements)).length))).map
          Prod.fst := by
      simp [optimizeExperienceEntry, h]
    rw [he]
    exact pairwise_take_sortDesc_scored (achievementFullScore kw)
      (achievementFullScore_den_pos kw) e.achievements _

theorem pairwise_achievements_project (kw : List String) (p : Project) :
    (trimProjectAchievements kw p).achievements.Pairwise
      (fun a b => Frac.le (scoreRelevance kw b) (scoreRelevance kw a)) := by
  by_cases h : p.achievements = []
  · have he : trimProjectAchievements kw p = p := by
      simp [trimProjectAchievements, h]
    rw [he, h]
    exact List.Pairwise.nil
  · have he : (trimProjectAchievements kw p).achievements =
        ((sortDesc
            (p.achievements.map (fun a => (a, scoreRelevance kw a)))).take
          3).map Prod.fst := by
      simp [trimProjectAchievements, h]
    rw [he]
    exact pairwise_take_sortDesc_scored (scoreRelevance kw)
      (scoreRelevance_den_pos kw) p.achievements 3

/-- C7: in every output of `optimize_experience` the achievements of each
entry appear in non-increasing order of their bonus-inclusive score; in
every output of `optimize_projects` the kept entries appear in
non-increasing order of their base entry score and each kept entry's
achievements in non-increasing base score; and the sort the program uses
(`sortDesc`) is exactly the stable descending order: annotating any
scored list with original positions, the sorted list is ordered by the
lexicographic key (score descending, original position ascending), so
equal scores keep their original relative order. -/
theorem spec_C7 (kw : List String) (es : List ExpEntry) (ps : List Project)
    (maxp : Nat) :
    (∀ e ∈ optimizeExperience kw es,
      e.achievements.Pairwise
        (fun a b =>
          Frac.le (achievementFullScore kw b) (achievementFullScore kw a))) ∧
    (∀ p ∈ optimizeProjects kw maxp ps,
      p.achievements.Pairwise
        (fun a b => Frac.le (scoreRelevance kw b) (scoreRelevance kw a))) ∧
    ((sortDesc (projectsScored kw ps)).take maxp).Pairwise
      (fun x y => Frac.le y.2 x.2) ∧
    optimizeProjects kw maxp ps =
      ((sortDesc (projectsScored kw ps)).take maxp).map
        (fun pr => trimProjectAchievements kw pr.1) ∧
    (∀ sl : List (String × Frac), (∀ x ∈ sl, 0 < x.2.den) →
      sortDesc sl = mapFst Prod.snd (sortDesc (withIdx 0 sl)) ∧
      (sortDesc (withIdx 0 sl)).Pairwise (lexAfter Prod.fst)) := by
  refine ⟨?_, ?_, ?_, rfl, ?_⟩
  · intro e he
    obtain ⟨i, e', _, rfl⟩ := mem_optimizeExperienceGo he
    exact pairwise_achievements_entry kw i e'
  · intro p hp
    obtain ⟨pr, _, rfl⟩ := List.mem_map.mp hp
    exact pairwise_achievements_project kw pr.1
  · have hden : ∀ p ∈ projectsScored kw ps, 0 < p.2.den := by
      intro p hp
      obtain ⟨q, _, rfl⟩ := List.mem_map.mp hp
      exact scoreRelevance_den_pos kw _
    exact (pairwise_le_sortDesc _ hden).sublist (List.take_sublist _ _)
  · intro sl hsl
    have hidx : ∀ p ∈ withIdx 0 sl, 0 < p.2.den := by
      intro p hp
      obtain ⟨q, hq, he⟩ := mem_withIdx_den hp
      rw [he]
      exact hsl q hq
    refine ⟨?_, pairwise_lexAfter_sortDesc Prod.fst _ hidx
      (pairwise_lt_withIdx 0 sl)⟩
    conv_lhs => rw [← mapFst_withIdx 0 sl]
    exact sortDesc_mapFst Prod.snd (withIdx 0 sl)

/-- C7 witness: the stability characterization at a concrete tied input —
the two equally-scored items keep their original order. -/
theorem spec_C7_witness :
    (sortDesc c7Tie = mapFst Prod.snd (sortDesc (withIdx 0 c7Tie)) ∧
      (sortDesc (withIdx 0 c7Tie)).Pairwise (lexAfter Prod.fst)) ∧
    sortDesc c7Tie = c7Tie :=
  ⟨(spec_C7 [] [] [] 0).2.2.2.2 c7Tie (by decide), by decide⟩

/-! ### Pipeline helper lemmas (validation, governor stages) -/

theorem toExpEntries_ok_of_wf {l : List ExpItem}
    (h : ∀ x ∈ l, ∃ e, x = ExpItem.entry e) :
    ∃ es, toExpEntries l = .ok es := by
  induction l with
  | nil => exact ⟨[], rfl⟩
  | cons x rest ih =>
    obtain ⟨e, rfl⟩ := h x (List.mem_cons_self _ _)
    obtain ⟨es, hes⟩ := ih (fun y hy => h y (List.mem_cons_of_mem _ hy))
    exact ⟨e :: es, by simp [toExpEntries, hes]⟩

theorem toProjects_ok_of_wf {l : List ProjItem}
    (h : ∀ x ∈ l, ∃ p, x = ProjItem.entry p) :
    ∃ ps, toProjects l = .ok ps := by
  induction l with
  | nil => exact ⟨[], rfl⟩
  | cons x rest ih =>
    obtain ⟨p, rfl⟩ := h x (List.mem_cons_self _ _)
    obtain ⟨ps, hps⟩ := ih (fun y hy => h y (List.mem_cons_of_mem _ hy))
    exact ⟨p :: ps, by simp [toProjects, hps]⟩

theorem toExpEntries_error (pre : List ExpItem) (s : String)
    (post : List ExpItem) :
    toExpEntries (pre ++ ExpItem.mal s :: post) = .error () := by
  induction pre with
  | nil => rfl
  | cons x rest ih =>
    cases x with
    | entry e => simp [toExpEntries, ih]
    | mal t => rfl

theorem length_optimizeProjects (kw : List String) (maxp : Nat)
    (ps : List Project) :
    (optimizeProjects kw maxp ps).length = min maxp ps.length := by
  simp [optimizeProjects, length_sortDesc, projectsScored]

theorem stage1_eq (w : Working) :
    ∃ v, stage1 w = { w with volunteering := v } := by
  unfold stage1
  split
  · split
    · exact ⟨some [], rfl⟩
    · exact ⟨w.volunteering, rfl⟩
  · exact ⟨w.volunteering, rfl⟩

theorem stage2_cases (w : Working) :
    stage2 w = w ∨ stage2 w = { w with projects := w.projects.take 2 } := by
  unfold stage2
  split
  · exact Or.inr rfl
  · exact Or.inl rfl

theorem stage3_cases (w : Working) :
    stage3 w = w ∨ stage3 w =
      { w with
        experience :=
          w.experience.map (fun e =>
            if 3 < e.achievements.length then
              { e with achievements := e.achievements.take 3 }
            else e) } := by
  unfold stage3
  split
  · exact Or.inr rfl
  · exact Or.inl rfl

theorem stage4_cases (w : Working) :
    stage4 w = w ∨ stage4 w =
      { w with experience := w.experience.take 4 } := by
  unfold stage4
  split
  · split
    · exact Or.inr rfl
    · exact Or.inl rfl
  · exact Or.inl rfl

theorem est_stage1 (w : Working) :
    estimateContentLength (stage1 w) = estimateContentLength w := by
  obtain ⟨v, hv⟩ := stage1_eq w
  rw [hv]
  rfl

theorem sum_take_le {α : Type} (f : α → Nat) (l : List α) (n : Nat) :
    ((l.take n).map f).sum ≤ (l.map f).sum :=
  ((List.take_sublist n l).map f).sum_le_sum (fun _ _ => Nat.zero_le _)

theorem est_stage2_le (w : Working) :
    estimateContentLength (stage2 w) ≤ estimateContentLength w := by
  rcases stage2_cases w with h | h <;> rw [h]
  unfold estimateContentLength
  have := sum_take_le projLen w.projects 2
  simp only
  omega

theorem est_stage3_le (w : Working) :
    estimateContentLength (stage3 w) ≤ estimateContentLength w := by
  rcases stage3_cases w with h | h <;> rw [h]
  unfold estimateContentLength
  have hexp :
      ((w.experience.map (fun e =>
        if 3 < e.achievements.length then
          { e with achievements := e.achievements.take 3 }
        else e)).map expLen).sum ≤ (w.experience.map expLen).sum := by
    rw [List.map_map]
    refine List.sum_le_sum (fun e _ => ?_)
    simp only [Function.comp]
    split
    · unfold expLen
      have := sum_take_le String.length e.achievements 3
      simp only [List.map_take] at this ⊢
      omega
    · exact Nat.le_refl _
  simp only
  omega

theorem stage1_other (w : Working) :
    (stage1 w).experience = w.experience ∧
    (stage1 w).projects = w.projects ∧ (stage1 w).skills = w.skills := by
  obtain ⟨v, hv⟩ := stage1_eq w
  rw [hv]
  exact ⟨rfl, rfl, rfl⟩

theorem stage2_vol (w : Working) :
    (stage2 w).volunteering = w.volunteering := by
  rcases stage2_cases w with h | h <;> rw [h]

theorem stage3_vol (w : Working) :
    (stage3 w).volunteering = w.volunteering := by
  rcases stage3_cases w with h | h <;> rw [h]

theorem stage4_vol (w : Working) :
    (stage4 w).volunteering = w.volunteering := by
  rcases stage4_cases w with h | h <;> rw [h]

theorem stage3_proj (w : Working) : (stage3 w).projects = w.projects := by
  rcases stage3_cases w with h | h <;> rw [h]

theorem stage4_proj (w : Working) : (stage4 w).projects = w.projects := by
  rcases stage4_cases w with h | h <;> rw [h]

theorem stage1_vol (w : Working) :
    (stage1 w).volunteering = w.volunteering ∨
    ((stage1 w).volunteering = some [] ∧ w.volunteering.isSome = true) := by
  unfold stage1
  split
  · rename_i l heq
    split
    · exact Or.inr ⟨rfl, by rw [heq]; rfl⟩
    · exact Or.inl rfl
  · exact Or.inl rfl

theorem governor_vol (w : Working) :
    (lengthGovernor w).volunteering = w.volunteering ∨
    ((lengthGovernor w).volunteering = some [] ∧
      w.volunteering.isSome = true) := by
  unfold lengthGovernor
  split
  · rw [stage4_vol, stage3_vol, stage2_vol]
    exact stage1_vol w
  · exact Or.inl rfl

theorem governor_proj_le (w : Working) :
    (lengthGovernor w).projects.length ≤ w.projects.length := by
  unfold lengthGovernor
  split
  · rw [stage4_proj, stage3_proj]
    rcases stage2_cases (stage1 w) with h | h <;> rw [h]
    · rw [(stage1_other w).2.1]
    · show (List.take 2 (stage1 w).projects).length ≤ w.projects.length
      rw [(stage1_other w).2.1, List.length_take]
      omega
  · exact Nat.le_refl _

theorem volWorking_facts {kw : List String} {vol : Option (List ProjItem)}
    {v : Option (List Project)} (h : volWorking kw vol = .ok v) :
    v.isSome = vol.isSome ∧ ∀ l, v = some l → l.length ≤ 2 := by
  cases vol with
  | none =>
    simp only [volWorking] at h
    injection h with h1
    subst h1
    exact ⟨rfl, by simp⟩
  | some vl =>
    simp only [volWorking] at h
    by_cases hvl : vl = []
    · rw [if_pos hvl] at h
      injection h with h1
      subst h1
      refine ⟨rfl, fun l hl => ?_⟩
      injection hl with h2
      subst h2
      simp
    · rw [if_neg hvl] at h
      cases ht : toProjects vl with
      | error u => rw [ht] at h; cases h
      | ok vols =>
        rw [ht] at h
        injection h with h1
        subst h1
        refine ⟨rfl, fun l hl => ?_⟩
        injection hl with h2
        subst h2
        rw [length_optimizeProjects]
        omega

theorem sectionsWorking_facts {r : Resume} {jd rt lt : String} {w : Working}
    (hw : sectionsWorking r jd rt lt = .ok w) :
    w.volunteering.isSome = r.volunteering.isSome ∧
    w.projects.length ≤ 3 ∧
    (∀ l, w.volunteering = some l → l.length ≤ 2) := by
  unfold sectionsWorking at hw
  cases he : toExpEntries (r.experience.getD []) with
  | error u => rw [he] at hw; cases hw
  | ok exps0 =>
    cases hp : toProjects (r.projects.getD []) with
    | error u => rw [he, hp] at hw; cases hw
    | ok projs =>
      cases hvw : volWorking (extractJobKeywords jd) r.volunteering with
      | error u => rw [he, hp, hvw] at hw; cases hw
      | ok vol =>
        rw [he, hp, hvw] at hw
        injection hw with h1
        subst h1
        obtain ⟨hv1, hv2⟩ := volWorking_facts hvw
        refine ⟨hv1, ?_, hv2⟩
        show (optimizeProjects (extractJobKeywords jd) 3 projs).length ≤ 3
        rw [length_optimizeProjects]
        omega

/-! ### Claim C2 (malformed entries) -/

theorem volWorking_ok_of_wf (kw : List String)
    {vol : Option (List ProjItem)}
    (h : ∀ x ∈ vol.getD [], ∃ p, x = ProjItem.entry p) :
    ∃ v, volWorking kw vol = .ok v := by
  cases vol with
  | none => exact ⟨none, rfl⟩
  | some vl =>
    simp only [volWorking]
    by_cases hvl : vl = []
    · rw [if_pos hvl]
      exact ⟨some [], rfl⟩
    · rw [if_neg hvl]
      obtain ⟨vs, hvs⟩ := toProjects_ok_of_wf (fun x hx => h x (by simpa using hx))
      rw [hvs]
      exact ⟨some (optimizeProjects kw 2 vs), rfl⟩

/-- C2 (amended): the optimizer never raises for input whose list entries
are all mappings; but a malformed (non-mapping) entry is *not* skipped
silently — it raises (see the counterexample). -/
theorem spec_C2 (r : Resume) (jd rt lt : String) (h : C2Valid r) :
    ∃ o, optimizeResume r jd rt lt = .ok o := by
  obtain ⟨h1, h2, h3⟩ := h
  obtain ⟨es, hes⟩ := toExpEntries_ok_of_wf h1
  obtain ⟨ps, hps⟩ := toProjects_ok_of_wf h2
  obtain ⟨v, hv⟩ := volWorking_ok_of_wf (extractJobKeywords jd) h3
  unfold optimizeResume sectionsWorking
  rw [hes, hps, hv]
  exact ⟨_, rfl⟩

/-- C2 is false on the code as to skipping: a non-mapping entry in the
experience list makes `optimize_resume` raise (`exp.copy()` /
`exp.get` on a `str` raises `AttributeError`) instead of being skipped. -/
theorem spec_C2_cex :
    optimizeResume
        { emptyResume with
          experience := some [ExpItem.mal "Software Engineer at Initech"] }
        "" "" "" = .error () := by
  rfl

/-- C2 witness: a structurally valid resume optimizes without raising. -/
theorem spec_C2_witness : ∃ o, optimizeResume emptyResume "" "" "" = .ok o :=
  spec_C2 emptyResume "" "" "" ⟨by simp [emptyResume], by simp [emptyResume],
    by simp [emptyResume]⟩

/-! ### Claim C3 (shape preservation) -/

/-- C3 (amended): `optimize_resume` preserves every top-level key (scalar
values and extra keys verbatim, list keys present) and keeps experience /
projects / volunteering entries as mappings — but the skills list's
entries are normalized to strings, so a dict-shaped skills entry changes
element type (see the counterexample). -/
theorem spec_C3 (r : Resume) (jd rt lt : String) (o : Resume)
    (h : optimizeResume r jd rt lt = .ok o) : C3Shape r o := by
  unfold optimizeResume at h
  cases hw : sectionsWorking r jd rt lt with
  | error u => rw [hw] at h; cases h
  | ok w =>
    rw [hw] at h
    injection h with h1
    subst h1
    have hvol := (sectionsWorking_facts hw).1
    have hiff : (lengthGovernor w).volunteering.isSome =
        r.volunteering.isSome := by
      rcases governor_vol w with hg | ⟨hg, hs⟩
      · rw [hg, hvol]
      · rw [hg, ← hvol, hs]
        rfl
    unfold C3Shape rebuildResume
    refine ⟨rfl, rfl, rfl, rfl, rfl, rfl, rfl, rfl, rfl, rfl, rfl,
      ⟨_, rfl⟩, ⟨_, rfl⟩, ⟨_, rfl⟩, ?_, ?_⟩
    · show r.volunteering.isSome ↔
        ((lengthGovernor w).volunteering.map
          (fun l => l.map ProjItem.entry)).isSome
      cases hl : (lengthGovernor w).volunteering with
      | none =>
        rw [hl] at hiff
        simp [← hiff]
      | some l =>
        rw [hl] at hiff
        simp [← hiff]
    · show ((lengthGovernor w).volunteering.map
          (fun l => l.map ProjItem.entry)) = none ∨ _
      cases hl : (lengthGovernor w).volunteering with
      | none => exact Or.inl rfl
      | some l => exact Or.inr ⟨l, rfl⟩

/-- C3 is false on the code as stated: a dict-shaped skills entry (a
mapping) is normalized to its display string, so the skills list changes
element type from mapping to string. -/
theorem spec_C3_cex :
    c3CexResume.skills = some [SkillItem.dict [("skill", "Python")]] ∧
    optimizeResume c3CexResume "" "" "" =
      .ok (rebuildResume c3CexResume (lengthGovernor c3CexWorking)) ∧
    (rebuildResume c3CexResume (lengthGovernor c3CexWorking)).skills =
      some [SkillItem.str "Python"] :=
  ⟨rfl, rfl, rfl⟩

/-- C3 witness: the amended shape preservation at a concrete resume. -/
theorem spec_C3_witness :
    C3Shape emptyResume
      (rebuildResume emptyResume (lengthGovernor c3wWorking)) :=
  spec_C3 emptyResume "" "" "" _ (by rfl)

/-! ### Claim C9 (projects / volunteering caps and ranking) -/

theorem trimProject_title (kw : List String) (p : Project) :
    (trimProjectAchievements kw p).projectTitle = p.projectTitle := by
  simp only [trimProjectAchievements]
  split <;> rfl

theorem trimProject_role (kw : List String) (p : Project) :
    (trimProjectAchievements kw p).role = p.role := by
  simp only [trimProjectAchievements]
  split <;> rfl

theorem trimProject_sub (kw : List String) (p : Project) :
    ∀ a ∈ (trimProjectAchievements kw p).achievements,
      a ∈ p.achievements := by
  intro a ha
  by_cases h : p.achievements = []
  · have he : trimProjectAchievements kw p = p := by
      simp [trimProjectAchievements, h]
    rw [he] at ha
    exact ha
  · have he : (trimProjectAchievements kw p).achievements =
        ((sortDesc
            (p.achievements.map (fun a => (a, scoreRelevance kw a)))).take
          3).map Prod.fst := by
      simp [trimProjectAchievements, h]
    rw [he] at ha
    obtain ⟨pr, hpr, rfl⟩ := List.mem_map.mp ha
    obtain ⟨b, hb, rfl⟩ :=
      List.mem_map.mp (mem_sortDesc.mp (List.mem_of_mem_take hpr))
    exact hb

theorem trimProject_len (kw : List String) (p : Project) :
    (trimProjectAchievements kw p).achievements.length ≤ 3 ∨
    trimProjectAchievements kw p = p := by
  by_cases h : p.achievements = []
  · exact Or.inr (by simp [trimProjectAchievements, h])
  · refine Or.inl ?_
    have he : (trimProjectAchievements kw p).achievements =
        ((sortDesc
            (p.achievements.map (fun a => (a, scoreRelevance kw a)))).take
          3).map Prod.fst := by
      simp [trimProjectAchievements, h]
    rw [he, List.length_map]
    exact List.length_take_le _ _

theorem trimProject_top (kw : List String) (p : Project) :
    ∃ dropped : List String,
      List.Perm ((trimProjectAchievements kw p).achievements ++ dropped)
        p.achievements ∧
      ∀ b ∈ dropped, ∀ a ∈ (trimProjectAchievements kw p).achievements,
        Frac.le (scoreRelevance kw b) (scoreRelevance kw a) := by
  by_cases h : p.achievements = []
  · have he : trimProjectAchievements kw p = p := by
      simp [trimProjectAchievements, h]
    rw [he, h]
    exact ⟨[], List.Perm.refl _, by simp⟩
  · have he : (trimProjectAchievements kw p).achievements =
        ((sortDesc
            (p.achievements.map (fun a => (a, scoreRelevance kw a)))).take
          3).map Prod.fst := by
      simp [trimProjectAchievements, h]
    rw [he]
    refine ⟨((sortDesc
        (p.achievements.map (fun a => (a, scoreRelevance kw a)))).drop
      3).map Prod.fst, ?_, ?_⟩
    · rw [← List.map_append, List.take_append_drop]
      have hperm :=
        (perm_sortDesc
          (p.achievements.map (fun a => (a, scoreRelevance kw a)))).map
          Prod.fst
      simpa [List.map_map, Function.comp_def] using hperm
    · intro b hb a ha
      obtain ⟨x, hx, rfl⟩ := List.mem_map.mp ha
      obtain ⟨y, hy, rfl⟩ := List.mem_map.mp hb
      have hden : ∀ r ∈ p.achievements.map
          (fun a => (a, scoreRelevance kw a)), 0 < r.2.den := by
        intro r hr
        obtain ⟨s, _, rfl⟩ := List.mem_map.mp hr
        exact scoreRelevance_den_pos kw s
      have hle := take_drop_le_sortDesc 3 _ hden x hx y hy
      obtain ⟨xs, _, hxe⟩ :=
        List.mem_map.mp (mem_sortDesc.mp (List.mem_of_mem_take hx))
      obtain ⟨ys, _, hye⟩ :=
        List.mem_map.mp (mem_sortDesc.mp (List.mem_of_mem_drop hy))
      have hx2 : x.2 = scoreRelevance kw x.1 := by rw [← hxe]
      have hy2 : y.2 = scoreRelevance kw y.1 := by rw [← hye]
      rw [← hx2, ← hy2]
      exact hle

/-- C9: `optimize_projects` keeps exactly `min(max_projects, n)` entries;
every kept entry is an input entry with at most its top 3 achievements
by base relevance (the kept achievements appear in non-increasing base
score, and the original achievements split into the kept ones plus
dropped ones each scoring no more than every kept one); entries are
ranked by the base relevance of the aggregate entry text (no digit /
impact-verb bonus); and through the facade the returned projects list
has at most 3 entries and volunteering at most 2. -/
theorem spec_C9 (kw : List String) (maxp : Nat) (ps : List Project)
    (r : Resume) (jd rt lt : String) : C9Post kw maxp ps r jd rt lt := by
  refine ⟨length_optimizeProjects kw maxp ps, ?_, ?_, ?_⟩
  · intro p hp
    obtain ⟨pr, hpr, rfl⟩ := List.mem_map.mp hp
    obtain ⟨q, hq, rfl⟩ :=
      List.mem_map.mp (mem_sortDesc.mp (List.mem_of_mem_take hpr))
    obtain ⟨dropped, hperm, hdom⟩ := trimProject_top kw q
    refine ⟨q, hq, trimProject_title kw q, trimProject_role kw q,
      trimProject_sub kw q, ?_, pairwise_achievements_project kw q,
      dropped, hperm, hdom⟩
    rcases trimProject_len kw q with h | h
    · exact h
    · rw [h]
      have := trimProject_sub kw q
      rw [h] at this
      by_contra hlen
      push_neg at hlen
      -- here `trimProjectAchievements kw q = q` means achievements were
      -- empty, contradiction with length > 3
      have hq0 : q.achievements = [] := by
        by_contra hne
        have he : (trimProjectAchievements kw q).achievements =
            ((sortDesc
                (q.achievements.map
                  (fun a => (a, scoreRelevance kw a)))).take 3).map
              Prod.fst := by
          simp [trimProjectAchievements, hne]
        rw [h] at he
        rw [he, List.length_map] at hlen
        have := List.length_take_le 3
          (sortDesc (q.achievements.map (fun a => (a, scoreRelevance kw a))))
        omega
      rw [hq0] at hlen
      simp at hlen
  · have hden : ∀ p ∈ projectsScored kw ps, 0 < p.2.den := by
      intro p hp
      obtain ⟨q, _, rfl⟩ := List.mem_map.mp hp
      exact scoreRelevance_den_pos kw _
    exact (pairwise_le_sortDesc _ hden).sublist (List.take_sublist _ _)
  · intro o ho
    unfold optimizeResume at ho
    cases hw : sectionsWorking r jd rt lt with
    | error u => rw [hw] at ho; cases ho
    | ok w =>
      rw [hw] at ho
      injection ho with h1
      subst h1
      obtain ⟨hv1, hp3, hv2⟩ := sectionsWorking_facts hw
      constructor
      · intro l hl
        have hop : (rebuildResume r (lengthGovernor w)).projects =
            some ((lengthGovernor w).projects.map ProjItem.entry) := rfl
        rw [hop] at hl
        injection hl with h2
        rw [← h2, List.length_map]
        exact Nat.le_trans (governor_proj_le w) hp3
      · intro l hl
        have hov : (rebuildResume r (lengthGovernor w)).volunteering =
            (lengthGovernor w).volunteering.map
              (fun l => l.map ProjItem.entry) := rfl
        rw [hov] at hl
        cases hlg : (lengthGovernor w).volunteering with
        | none => rw [hlg] at hl; cases hl
        | some lv =>
          rw [hlg] at hl
          injection hl with h2
          rw [← h2, List.length_map]
          rcases governor_vol w with hg | ⟨hg, _⟩
          · rw [hlg] at hg
            exact hv2 lv hg.symm
          · rw [hlg] at hg
            injection hg with h3
            rw [h3]
            simp

/-- C9 witness: the project caps at a concrete input. -/
theorem spec_C9_witness :
    C9Post ["python"] 3 [⟨"t", "r", ["a"]⟩] emptyResume "" "" "" :=
  spec_C9 ["python"] 3 [⟨"t", "r", ["a"]⟩] emptyResume "" "" ""

/-! ### Claim C4 (budget convergence) -/

set_option maxHeartbeats 1000000 in
/-- C4 (amended): the `<= 4` experience truncation is guaranteed only when
the estimate *still* exceeds `budget * 1.3` after governor stages 1-3;
then the returned experience list has at most 4 entries. -/
theorem spec_C4 (r : Resume) (jd rt lt : String) (w : Working)
    (h1 : sectionsWorking r jd rt lt = .ok w)
    (h2 : 5460 < estimateContentLength (stage3 (stage2 (stage1 w)))) :
    ∃ o, optimizeResume r jd rt lt = .ok o ∧
      ∀ l, o.experience = some l → l.length ≤ 4 := by
  have hchain : estimateContentLength (stage3 (stage2 (stage1 w))) ≤
      estimateContentLength w := by
    calc estimateContentLength (stage3 (stage2 (stage1 w))) ≤
        estimateContentLength (stage2 (stage1 w)) := est_stage3_le _
      _ ≤ estimateContentLength (stage1 w) := est_stage2_le _
      _ = estimateContentLength w := est_stage1 w
  have hgate : 5040 < estimateContentLength w := by omega
  have hgov : lengthGovernor w = stage4 (stage3 (stage2 (stage1 w))) := by
    unfold lengthGovernor
    rw [if_pos hgate]
  have hlen : (stage4 (stage3 (stage2 (stage1 w)))).experience.length ≤ 4 := by
    unfold stage4
    rw [if_pos h2]
    split
    · show ((stage3 (stage2 (stage1 w))).experience.take 4).length ≤ 4
      rw [List.length_take]
      omega
    · rename_i hn
      omega
  refine ⟨rebuildResume r (lengthGovernor w), ?_, ?_⟩
  · unfold optimizeResume
    rw [h1]
  · intro l hl
    have hoe : (rebuildResume r (lengthGovernor w)).experience =
        some ((lengthGovernor w).experience.map ExpItem.entry) := rfl
    rw [hoe] at hl
    injection hl with h3
    rw [← h3, List.length_map, hgov]
    exact hlen

set_option maxRecDepth 4000 in
/-- C4 is false on the code as stated: this resume's estimated content
length is 5530 > 5460 = `budget * 1.3`, yet the optimizer's section pass
alone (dropping the denylisted skills) shrinks it below the governor's
`budget * 1.2` trigger, so no stage runs and all 5 experience entries are
returned. -/
theorem spec_C4_cex :
    estimateOfResume c4Resume = .ok 5530 ∧
    (optimizeResume c4Resume "" "" "").toOption.map
        (fun o => (o.experience.getD []).length) = some 5 ∧
    5460 < 5530 ∧ 4 < 5 :=
  ⟨rfl, rfl, by decide, by decide⟩

set_option maxRecDepth 4000 in
/-- C4 witness: a resume whose irreducible role strings keep the estimate
over `budget * 1.3` through stages 1-3, so the experience list is cut to
4. -/
theorem spec_C4_witness :
    ∃ o, optimizeResume c4wResume "" "" "" = .ok o ∧
      ∀ l, o.experience = some l → l.length ≤ 4 :=
  spec_C4 c4wResume "" "" "" c4wWorking (by rfl) (by decide)

/-! ### Claim C10 (write-through aliasing of the backfill) -/

theorem readAch_writeAch_ne {σ : Store} {i r : Nat} {v : List String}
    (h : i ≠ r) : readAch (writeAch σ i v) r = readAch σ r := by
  unfold readAch writeAch
  rw [List.getD_eq_getElem?_getD, List.getD_eq_getElem?_getD,
    List.getElem?_set_ne h]

theorem readAch_writeAch_eq {σ : Store} {i : Nat} {v : List String}
    (h : i < σ.length) : readAch (writeAch σ i v) i = v := by
  unfold readAch writeAch
  rw [List.getD_eq_getElem?_getD, List.getElem?_set_self h]
  rfl

theorem readAch_append {σ suf : Store} {r : Nat} (h : r < σ.length) :
    readAch (σ ++ suf) r = readAch σ r := by
  unfold readAch
  rw [List.getD_eq_getElem?_getD, List.getD_eq_getElem?_getD,
    List.getElem?_append_left h]

theorem writeAch_length (σ : Store) (i : Nat) (v : List String) :
    (writeAch σ i v).length = σ.length :=
  List.length_set σ i v

theorem enhanceHGo_cons (src : String) (e : ExpEntryH)
    (es : List ExpEntryH) (σ : Store) :
    enhanceHGo src (e :: es) σ =
      ((e :: (enhanceHGo src es
          (writeAch σ e.achRef
            (enhAch src e.role e.company (readAch σ e.achRef)))).1),
        (enhanceHGo src es
          (writeAch σ e.achRef
            (enhAch src e.role e.company (readAch σ e.achRef)))).2) :=
  rfl

theorem enhanceHGo_fst (src : String) (es : List ExpEntryH) (σ : Store) :
    (enhanceHGo src es σ).1 = es := by
  induction es generalizing σ with
  | nil => rfl
  | cons e rest ih =>
    rw [enhanceHGo_cons]
    simp [ih]

theorem enhanceHGo_length (src : String) (es : List ExpEntryH) (σ : Store) :
    (enhanceHGo src es σ).2.length = σ.length := by
  induction es generalizing σ with
  | nil => rfl
  | cons e rest ih =>
    rw [enhanceHGo_cons]
    show (enhanceHGo src rest _).2.length = σ.length
    rw [ih, writeAch_length]

theorem enhanceHGo_preserve (src : String) {es : List ExpEntryH}
    {σ : Store} {r : Nat} (h : ∀ e ∈ es, e.achRef ≠ r) :
    readAch (enhanceHGo src es σ).2 r = readAch σ r := by
  induction es generalizing σ with
  | nil => rfl
  | cons e rest ih =>
    rw [enhanceHGo_cons]
    show readAch (enhanceHGo src rest _).2 r = readAch σ r
    rw [ih (fun e2 he2 => h e2 (List.mem_cons_of_mem _ he2)),
      readAch_writeAch_ne (h e (List.mem_cons_self _ _))]

theorem getD_mem {α : Type} {l : List α} {i : Nat} {d : α}
    (h : i < l.length) : l.getD i d ∈ l := by
  rw [List.getD_eq_getElem l d h]
  exact List.getElem_mem _

theorem enhanceHGo_write (src : String) :
    ∀ (es : List ExpEntryH) (σ : Store),
      (∀ e ∈ es, e.achRef < σ.length) →
      es.Pairwise (fun a b => a.achRef ≠ b.achRef) →
      ∀ i, i < es.length →
        readAch (enhanceHGo src es σ).2 ((es.getD i dummyExpH).achRef) =
          enhAch src (es.getD i dummyExpH).role
            (es.getD i dummyExpH).company
            (readAch σ ((es.getD i dummyExpH).achRef)) := by
  intro es
  induction es with
  | nil => intro σ _ _ i hi; simp at hi
  | cons e rest ih =>
    intro σ hval hdist i hi
    rw [List.pairwise_cons] at hdist
    rw [enhanceHGo_cons]
    cases i with
    | zero =>
      show readAch (enhanceHGo src rest _).2 e.achRef =
        enhAch src e.role e.company (readAch σ e.achRef)
      rw [enhanceHGo_preserve src (fun e2 he2 => (hdist.1 e2 he2).symm),
        readAch_writeAch_eq (hval e (List.mem_cons_self _ _))]
    | succ n =>
      have hn : n < rest.length := by simpa using hi
      have hne : e.achRef ≠ (rest.getD n dummyExpH).achRef :=
        hdist.1 _ (getD_mem hn)
      show readAch (enhanceHGo src rest _).2
          ((rest.getD n dummyExpH).achRef) = _
      rw [ih _
        (fun e2 he2 => by
          rw [writeAch_length]
          exact hval e2 (List.mem_cons_of_mem _ he2))
        hdist.2 n hn, readAch_writeAch_ne hne]
      rfl

theorem optHGo_cons_nil (kw : List String) (i : Nat) (e : ExpEntryH)
    (es : List ExpEntryH) (σ : Store) (h : readAch σ e.achRef = []) :
    optimizeExperienceHGo kw i (e :: es) σ =
      ((e :: (optimizeExperienceHGo kw (i + 1) es σ).1),
        (optimizeExperienceHGo kw (i + 1) es σ).2) := by
  simp only [optimizeExperienceHGo]
  rw [if_pos h]

theorem optHGo_cons_ne (kw : List String) (i : Nat) (e : ExpEntryH)
    (es : List ExpEntryH) (σ : Store) (h : ¬ readAch σ e.achRef = []) :
    optimizeExperienceHGo kw i (e :: es) σ =
      (({ e with achRef := σ.length } ::
          (optimizeExperienceHGo kw (i + 1) es
            (σ ++ [optimizedAchList kw i e.role e.company
              (readAch σ e.achRef)])).1),
        (optimizeExperienceHGo kw (i + 1) es
          (σ ++ [optimizedAchList kw i e.role e.company
            (readAch σ e.achRef)])).2) := by
  simp only [optimizeExperienceHGo]
  rw [if_neg h]

theorem optHGo_append (kw : List String) :
    ∀ (es : List ExpEntryH) (i : Nat) (σ : Store),
      ∃ suf, (optimizeExperienceHGo kw i es σ).2 = σ ++ suf := by
  intro es
  induction es with
  | nil => intro i σ; exact ⟨[], by simp [optimizeExperienceHGo]⟩
  | cons e rest ih =>
    intro i σ
    by_cases h : readAch σ e.achRef = []
    · obtain ⟨suf, hs⟩ := ih (i + 1) σ
      rw [optHGo_cons_nil kw i e rest σ h]
      exact ⟨suf, hs⟩
    · obtain ⟨suf, hs⟩ := ih (i + 1)
        (σ ++ [optimizedAchList kw i e.role e.company (readAch σ e.achRef)])
      rw [optHGo_cons_ne kw i e rest σ h]
      refine ⟨[optimizedAchList kw i e.role e.company
        (readAch σ e.achRef)] ++ suf, ?_⟩
      show (optimizeExperienceHGo kw (i + 1) rest _).2 = _
      rw [hs, List.append_assoc]

theorem optHGo_keep (kw : List String) :
    ∀ (es : List ExpEntryH) (i : Nat) (σ : Store),
      (∀ e ∈ es, e.achRef < σ.length) →
      ∀ e2 ∈ (optimizeExperienceHGo kw i es σ).1,
        σ.length ≤ e2.achRef ∨
        (e2.achRef < σ.length ∧ readAch σ e2.achRef = []) := by
  intro es
  induction es with
  | nil => intro i σ _ e2 h2; simp [optimizeExperienceHGo] at h2
  | cons e rest ih =>
    intro i σ hval e2 h2
    by_cases h : readAch σ e.achRef = []
    · rw [optHGo_cons_nil kw i e rest σ h] at h2
      rcases List.mem_cons.mp h2 with h2e | h2'
      · rw [h2e]
        exact Or.inr ⟨hval e (List.mem_cons_self _ _), h⟩
      · exact ih (i + 1) σ
          (fun e3 he3 => hval e3 (List.mem_cons_of_mem _ he3)) e2 h2'
    · rw [optHGo_cons_ne kw i e rest σ h] at h2
      rcases List.mem_cons.mp h2 with h2e | h2'
      · rw [h2e]
        exact Or.inl (Nat.le_refl _)
      · have h3 := ih (i + 1) _
          (fun e3 he3 =>
            Nat.lt_of_lt_of_le (hval e3 (List.mem_cons_of_mem _ he3))
              (by simp)) e2 h2'
        rcases h3 with h3 | ⟨h3, h4⟩
        · exact Or.inl (Nat.le_trans (by simp) h3)
        · rcases Nat.lt_or_ge e2.achRef σ.length with h5 | h5
          · refine Or.inr ⟨h5, ?_⟩
            rw [← readAch_append h5]
            exact h4
          · exact Or.inl h5

theorem stage3H_preserve :
    ∀ (es : List ExpEntryH) (σ : Store) (n : Nat),
      (∀ e ∈ es, e.achRef < n → (readAch σ e.achRef).length ≤ 3) →
      ∀ r, r < n → readAch (stage3H es σ) r = readAch σ r := by
  intro es
  induction es with
  | nil => intro σ n _ r _; rfl
  | cons e rest ih =>
    intro σ n hcond r hr
    by_cases hb : 3 < (readAch σ e.achRef).length
    · have hge : n ≤ e.achRef := by
        by_contra hlt
        push_neg at hlt
        have := hcond e (List.mem_cons_self _ _) hlt
        omega
      have hs : stage3H (e :: rest) σ =
          stage3H rest
            (writeAch σ e.achRef ((readAch σ e.achRef).take 3)) := by
        simp only [stage3H, List.foldl_cons]
        rw [if_pos hb]
      rw [hs]
      rw [ih _ n (fun e2 he2 hlt2 => ?_) r hr,
        readAch_writeAch_ne (by omega : e.achRef ≠ r)]
      rw [readAch_writeAch_ne (by omega : e.achRef ≠ e2.achRef)]
      exact hcond e2 (List.mem_cons_of_mem _ he2) hlt2
    · have hs : stage3H (e :: rest) σ = stage3H rest σ := by
        simp only [stage3H, List.foldl_cons]
        rw [if_neg hb]
      rw [hs]
      exact ih σ n (fun e2 he2 => hcond e2 (List.mem_cons_of_mem _ he2))
        r hr

theorem pipelineH_snd (jd rt lt : String) (b3 b4 : Bool)
    (es : List ExpEntryH) (σ : Store) (hcond : rt ≠ "" ∨ lt ≠ "")
    (hsrc : ¬(rt = "" ∧ lt = "")) :
    (experiencePipelineH jd rt lt b3 b4 es σ).2 =
      (if b3 then
        stage3H
          (optimizeExperienceH (extractJobKeywords jd)
            (enhanceHGo (srcText rt lt) es σ).1
            (enhanceHGo (srcText rt lt) es σ).2).1
          (optimizeExperienceH (extractJobKeywords jd)
            (enhanceHGo (srcText rt lt) es σ).1
            (enhanceHGo (srcText rt lt) es σ).2).2
      else
        (optimizeExperienceH (extractJobKeywords jd)
          (enhanceHGo (srcText rt lt) es σ).1
          (enhanceHGo (srcText rt lt) es σ).2).2) := by
  unfold experiencePipelineH enhanceH
  rw [if_pos hcond, if_neg hsrc]

/-- C10: with a non-empty source text, the backfill writes the appended
bullets through the entry's own achievement-list cell (the shallow copy
shares the reference), and neither `optimize_experience` (which allocates
fresh cells) nor the governor's in-place truncation (which touches only
those fresh cells, old cells being empty) ever overwrites it: after the
whole pipeline, the cell referenced by each input entry holds exactly its
backfilled list, so the caller's original input structure observes the
added bullets. -/
theorem spec_C10 (jd rt lt : String) (b3 b4 : Bool) (es : List ExpEntryH)
    (σ : Store) (hval : ∀ e ∈ es, e.achRef < σ.length)
    (hdist : es.Pairwise (fun a b => a.achRef ≠ b.achRef))
    (hsrc : ¬(rt = "" ∧ lt = "")) : C10Post jd rt lt b3 b4 es σ := by
  have hcond : rt ≠ "" ∨ lt ≠ "" := Decidable.not_and_iff_or_not_not.mp hsrc
  have henh : enhanceH rt lt es σ = enhanceHGo (srcText rt lt) es σ := by
    unfold enhanceH
    rw [if_neg hsrc]
  constructor
  · rw [henh, enhanceHGo_fst]
  · intro i hi
    rw [pipelineH_snd jd rt lt b3 b4 es σ hcond hsrc]
    have h1len : (enhanceHGo (srcText rt lt) es σ).2.length = σ.length :=
      enhanceHGo_length _ _ _
    have hri : (es.getD i dummyExpH).achRef < σ.length :=
      hval _ (getD_mem hi)
    obtain ⟨suf, hsuf⟩ := optHGo_append (extractJobKeywords jd)
      (enhanceHGo (srcText rt lt) es σ).1 0
      (enhanceHGo (srcText rt lt) es σ).2
    have h2 : readAch
        (optimizeExperienceH (extractJobKeywords jd)
          (enhanceHGo (srcText rt lt) es σ).1
          (enhanceHGo (srcText rt lt) es σ).2).2
        ((es.getD i dummyExpH).achRef) =
        readAch (enhanceHGo (srcText rt lt) es σ).2
          ((es.getD i dummyExpH).achRef) := by
      show readAch (optimizeExperienceHGo _ 0 _ _).2 _ = _
      rw [hsuf]
      exact readAch_append (by omega)
    have h1 : readAch (enhanceHGo (srcText rt lt) es σ).2
        ((es.getD i dummyExpH).achRef) =
        enhAch (srcText rt lt) (es.getD i dummyExpH).role
          (es.getD i dummyExpH).company
          (readAch σ ((es.getD i dummyExpH).achRef)) :=
      enhanceHGo_write (srcText rt lt) es σ hval hdist i hi
    cases b3 with
    | false =>
      rw [if_neg (by simp)]
      rw [h2, h1]
    | true =>
      rw [if_pos rfl]
      have h3 : ∀ e2 ∈ (optimizeExperienceH (extractJobKeywords jd)
          (enhanceHGo (srcText rt lt) es σ).1
          (enhanceHGo (srcText rt lt) es σ).2).1,
          e2.achRef < σ.length →
            (readAch
              (optimizeExperienceH (extractJobKeywords jd)
                (enhanceHGo (srcText rt lt) es σ).1
                (enhanceHGo (srcText rt lt) es σ).2).2
              e2.achRef).length ≤ 3 := by
        intro e2 he2 hlt
        have h4 := optHGo_keep (extractJobKeywords jd)
          (enhanceHGo (srcText rt lt) es σ).1 0
          (enhanceHGo (srcText rt lt) es σ).2
          (fun e3 he3 => by
            rw [h1len, enhanceHGo_fst] at *
            exact hval e3 he3)
          e2 he2
        rcases h4 with h4 | ⟨h4, h5⟩
        · rw [h1len] at h4
          omega
        · show (readAch (optimizeExperienceHGo _ 0 _ _).2 _).length ≤ 3
          rw [hsuf, readAch_append h4, h5]
          simp
      rw [stage3H_preserve _ _ σ.length
        (fun e2 he2 hlt => h3 e2 he2 (by omega)) _ hri]
      rw [h2, h1]

/-- C10 witness: the duplicate-bullet scenario on the heap — after the
pipeline the caller's cell holds the backfilled two-element list. -/
theorem spec_C10_witness :
    C10Post "" c5CexSource "" true true [⟨"manager", "acme", 0⟩]
      [["Led projects at acme corp"]] :=
  spec_C10 "" c5CexSource "" true true [⟨"manager", "acme", 0⟩]
    [["Led projects at acme corp"]] (by decide) (by decide) (by decide)

end ResumeOptimizer
